import Mathlib

/-!
# Verification of the rreading-glasses metadata controller

A shallow embedding, in Lean 4, of the cache controller of the
rreading-glasses metadata proxy (package `internal`, chiefly
`controller.go`, `buffer.go`, `edges.go` and `persist.go`), together with
theorems settling the specification claims about it.

Go conventions used throughout the embedding:
* `[]byte` values are `List Nat` (each entry one byte);
* `int64` / `time.Duration` values are `Int` (durations in nanoseconds);
* Go maps used as sets (`set[int64]`) are `Finset Int`;
* fallible calls return `Option` / sum types, with `none` standing for a
  returned error;
* the upstream `getter` and the cache are inputs of each modelled
  operation, and cache writes performed by an operation are collected in
  an explicit list of (key, bytes, ttl) records.
-/

namespace RGlasses

/-- Raw cached bytes (`[]byte`). -/
abbrev Bytes := List Nat

/-- `_missing` sentinel from `controller.go`: a single zero byte cached for
404 responses. -/
def missingSentinel : Bytes := [0]

/-- One hour in nanoseconds (`time.Hour`). -/
def nsHour : Int := 3600000000000

/-- `_missingTTL` from `controller.go`: `7 * 24 * time.Hour`. -/
def missingTTL : Int := 7 * 24 * nsHour

/-- `_authorTTL` from `controller.go`: `7 * 24 * time.Hour`. -/
def authorTTL : Int := 7 * 24 * nsHour

/-- `_workTTL` from `controller.go`: `14 * 24 * time.Hour`. -/
def workTTL : Int := 14 * 24 * nsHour

/-- `_editionTTL` from `controller.go`: `28 * 24 * time.Hour`. -/
def editionTTL : Int := 28 * 24 * nsHour

/-- `fuzz` from `controller.go`: scales duration `d` by a factor
`1 + r * (f - 1)` where `r` models the `rand.Float64()` draw in `[0, 1)`.
The float multiplication and the truncating `time.Duration` conversion are
modelled over `ℚ` with a floor. -/
def fuzz (d : Int) (f r : ℚ) : Int :=
  let f := if f < 1 then f + 1 else f
  let factor : ℚ := 1 + r * (f - 1)
  Int.floor ((d : ℚ) * factor)

/-- `contributorResource` (`resources.go`). -/
structure contributorResource where
  foreignID : Int
  role : String
deriving DecidableEq, Repr

/-- `bookResource` (`resources.go`): one edition. Fields not touched by the
controller logic under verification are omitted. -/
structure bookResource where
  foreignID : Int
  title : String
  fullTitle : String
  shortTitle : String
  ratingCount : Int
  ratingSum : Int
  contributors : List contributorResource
deriving DecidableEq, Repr

/-- `seriesResource` (`resources.go`), as referenced from works. -/
structure seriesResource where
  foreignID : Int
  title : String
deriving DecidableEq, Repr

/-- The author entries nested inside a work (`workResource.Authors`); only
the foreign ID is consulted by the controller. -/
structure authorRef where
  foreignID : Int
deriving DecidableEq, Repr

/-- `workResource` (`resources.go`): an abstract title with its accumulated
editions. -/
structure workResource where
  foreignID : Int
  title : String
  fullTitle : String
  shortTitle : String
  ratingCount : Int
  ratingSum : Int
  books : List bookResource
  authors : List authorRef
  series : List seriesResource
deriving DecidableEq, Repr

/-! ## Go `slices.BinarySearchFunc`

`denormalizeEditions` and `denormalizeWorks` place children with
`slices.BinarySearchFunc(xs, id, cmp.Compare of ForeignID)`. The loop below
is the Go standard library search (lower bound over a half-open interval),
operating on the list of keys. -/

/-- Key at index `m` (`x[h]` in the Go loop); out-of-range reads never
happen for in-contract calls and default to `0`. -/
def keyAt (keys : List Int) (m : Nat) : Int := keys.getD m 0

/-- The loop of Go `slices.BinarySearchFunc`: narrow `[i, j)` until empty,
returning the first index whose key is not less than `target`. -/
def bsLoop (keys : List Int) (target : Int) (i j : Nat) : Nat :=
  if h : i < j then
    let m := (i + j) / 2
    if keyAt keys m < target then bsLoop keys target (m + 1) j
    else bsLoop keys target i m
  else i
termination_by j - i
decreasing_by
  · simp only [m] at *; omega
  · simp only [m] at *; omega

/-- Go `slices.BinarySearchFunc` over a key list: returns the insertion
index and whether the key at that index equals the target. -/
def binarySearchKeys (keys : List Int) (target : Int) : Nat × Bool :=
  let i := bsLoop keys target 0 keys.length
  (i, decide (i < keys.length ∧ keyAt keys i = target))

/-- The insert-or-replace step of `denormalizeEditions` (`controller.go`
lines 795-803): binary-search `Work.books` by `ForeignID`, replacing the
edition when found and inserting it otherwise (`slices.Insert`). -/
def insertBook (books : List bookResource) (b : bookResource) : List bookResource :=
  let keys := books.map (fun x => x.foreignID)
  let res := binarySearchKeys keys b.foreignID
  if res.2 then books.set res.1 b
  else books.take res.1 ++ b :: books.drop res.1

/-- Strictly ascending foreign IDs: the at-rest invariant on `Work.books`
(`spec.md` §3 invariant 1), stated as pairwise `<` of keys. -/
def sortedByID (books : List bookResource) : Prop :=
  (books.map (fun x => x.foreignID)).Pairwise (· < ·)

instance : DecidablePred sortedByID := by
  intro books
  unfold sortedByID
  infer_instance

/-- `keyAt` agrees with `get` in range. -/
theorem keyAt_eq_get (keys : List Int) (i : Nat) (hi : i < keys.length) :
    keyAt keys i = keys.get ⟨i, hi⟩ := by
  simp [keyAt, List.getD_eq_getElem?_getD, List.getElem?_eq_getElem hi]

/-- Keys of a strictly sorted list are monotone in the index. -/
theorem sorted_keyAt_mono (keys : List Int) (h : keys.Pairwise (· < ·))
    {a b : Nat} (hab : a ≤ b) (hb : b < keys.length) :
    keyAt keys a ≤ keyAt keys b := by
  rcases Nat.lt_or_ge a b with hlt | hge
  · have := (List.pairwise_iff_get.mp h) ⟨a, Nat.lt_trans hlt hb⟩ ⟨b, hb⟩ hlt
    rw [keyAt_eq_get keys a (Nat.lt_trans hlt hb), keyAt_eq_get keys b hb]
    exact le_of_lt this
  · have : a = b := Nat.le_antisymm hab hge
    subst this
    exact le_refl _

/-- The Go binary-search loop returns a split point of the interval: all
keys strictly below it are `< target` and all keys at or above it are not,
provided the keys are sorted. -/
theorem bsLoop_split (keys : List Int) (t : Int) (h : keys.Pairwise (· < ·)) :
    ∀ n i j, j - i = n → i ≤ j → j ≤ keys.length →
    (∀ a, a < i → keyAt keys a < t) →
    (∀ a, j ≤ a → a < keys.length → ¬ keyAt keys a < t) →
    (∀ a, a < bsLoop keys t i j → keyAt keys a < t) ∧
    (∀ a, bsLoop keys t i j ≤ a → a < keys.length → ¬ keyAt keys a < t) ∧
    bsLoop keys t i j ≤ keys.length := by
  intro n
  induction n using Nat.strong_induction_on with
  | _ n ih =>
    intro i j hn hij hjlen hlow hhigh
    rw [bsLoop]
    by_cases hlt : i < j
    · simp only [hlt, dif_pos]
      set m := (i + j) / 2 with hm
      have hmi : i ≤ m := by omega
      have hmj : m < j := by omega
      have hmlen : m < keys.length := lt_of_lt_of_le hmj hjlen
      by_cases hk : keyAt keys m < t
      · simp only [hk, if_pos]
        refine ih (j - (m + 1)) (by omega) (m + 1) j (by omega) (by omega) hjlen ?_ hhigh
        intro a ha
        rcases Nat.lt_or_ge a i with hai | hai
        · exact hlow a hai
        · exact lt_of_le_of_lt (sorted_keyAt_mono keys h (by omega) hmlen) hk
      · simp only [hk, if_neg, not_false_iff]
        refine ih (m - i) (by omega) i m (by omega) (by omega) (le_of_lt hmlen) hlow ?_
        intro a ham halen hcon
        exact hk (lt_of_le_of_lt (sorted_keyAt_mono keys h ham halen) hcon)
    · simp only [hlt, dif_neg, not_false_iff]
      have : i = j := by omega
      subst this
      exact ⟨hlow, hhigh, le_trans hij hjlen⟩

/-- Any two split points coincide. -/
theorem split_unique (keys : List Int) (t : Int) (r1 r2 : Nat)
    (h1l : ∀ a, a < r1 → keyAt keys a < t)
    (h1h : ∀ a, r1 ≤ a → a < keys.length → ¬ keyAt keys a < t)
    (h1n : r1 ≤ keys.length)
    (h2l : ∀ a, a < r2 → keyAt keys a < t)
    (h2h : ∀ a, r2 ≤ a → a < keys.length → ¬ keyAt keys a < t)
    (h2n : r2 ≤ keys.length) : r1 = r2 := by
  by_contra hne
  rcases Nat.lt_or_ge r1 r2 with hlt | hge
  · exact h1h r1 (le_refl _) (lt_of_lt_of_le hlt h2n) (h2l r1 hlt)
  · have hlt : r2 < r1 := by omega
    exact h2h r2 (le_refl _) (lt_of_lt_of_le hlt h1n) (h1l r2 hlt)

/-- The split point of the whole interval, packaged. -/
theorem bsLoop_split0 (keys : List Int) (t : Int) (h : keys.Pairwise (· < ·)) :
    (∀ a, a < bsLoop keys t 0 keys.length → keyAt keys a < t) ∧
    (∀ a, bsLoop keys t 0 keys.length ≤ a → a < keys.length → ¬ keyAt keys a < t) ∧
    bsLoop keys t 0 keys.length ≤ keys.length :=
  bsLoop_split keys t h keys.length 0 keys.length rfl (Nat.zero_le _) (le_refl _)
    (fun a ha => absurd ha (Nat.not_lt_zero a))
    (fun a ha halen => absurd halen (by omega))

/-- Proof-side reformulation of `insertBook`: linear insert-or-replace.
It agrees with `insertBook` on sorted inputs (`insertBook_eq_linsert`). -/
def linsert : List bookResource → bookResource → List bookResource
  | [], b => [b]
  | x :: xs, b =>
    if b.foreignID < x.foreignID then b :: x :: xs
    else if b.foreignID = x.foreignID then b :: xs
    else x :: linsert xs b

/-- Base case of the Go loop: empty interval. -/
theorem bsLoop_self (keys : List Int) (t : Int) (i : Nat) :
    bsLoop keys t i i = i := by
  rw [bsLoop]
  simp

/-- Splitting a sorted cons cell whose head key is below the target. -/
theorem bsLoop_cons_lt (k0 : Int) (rest : List Int) (t : Int)
    (h : (k0 :: rest).Pairwise (· < ·)) (hk : k0 < t) :
    bsLoop (k0 :: rest) t 0 (rest.length + 1) = bsLoop rest t 0 rest.length + 1 := by
  have hrest : rest.Pairwise (· < ·) := (List.pairwise_cons.mp h).2
  obtain ⟨hl, hh, hn⟩ := bsLoop_split0 rest t hrest
  obtain ⟨hl2, hh2, hn2⟩ := bsLoop_split0 (k0 :: rest) t h
  have hlen : (k0 :: rest).length = rest.length + 1 := rfl
  refine split_unique (k0 :: rest) t _ _ ?_ ?_ ?_ ?_ ?_ ?_
  · intro a ha
    rw [hlen] at hl2
    exact hl2 a ha
  · intro a ha halen
    rw [hlen] at hh2
    exact hh2 a ha halen
  · rw [hlen] at hn2
    exact hn2
  · intro a ha
    match a with
    | 0 => exact hk
    | Nat.succ a => exact hl a (by omega)
  · intro a ha halen
    match a with
    | Nat.succ a => exact hh a (by omega) (by simp at halen; omega)
  · simp
    omega

/-- Splitting a sorted cons cell whose head key is not below the target. -/
theorem bsLoop_cons_ge (k0 : Int) (rest : List Int) (t : Int)
    (h : (k0 :: rest).Pairwise (· < ·)) (hk : ¬ k0 < t) :
    bsLoop (k0 :: rest) t 0 (rest.length + 1) = 0 := by
  obtain ⟨hl2, hh2, hn2⟩ := bsLoop_split0 (k0 :: rest) t h
  have hlen : (k0 :: rest).length = rest.length + 1 := rfl
  have hhead : ∀ x ∈ rest, k0 < x := (List.pairwise_cons.mp h).1
  refine split_unique (k0 :: rest) t _ _ ?_ ?_ ?_ ?_ ?_ ?_
  · intro a ha
    rw [hlen] at hl2
    exact hl2 a ha
  · intro a ha halen
    rw [hlen] at hh2
    exact hh2 a ha halen
  · rw [hlen] at hn2
    exact hn2
  · intro a ha
    exact absurd ha (Nat.not_lt_zero a)
  · intro a _ halen hcon
    match a with
    | 0 => exact hk hcon
    | Nat.succ a =>
      have halen2 : a < rest.length := by simp at halen; omega
      have : keyAt (k0 :: rest) (a + 1) = keyAt rest a := rfl
      rw [this, keyAt_eq_get rest a halen2] at hcon
      have := hhead (rest.get ⟨a, halen2⟩) (rest.get_mem _ _)
      omega
  · simp

/-- On sorted edition lists, the binary-search insert of
`denormalizeEditions` is the linear insert-or-replace. -/
theorem insertBook_eq_linsert (bs : List bookResource) (b : bookResource)
    (h : sortedByID bs) : insertBook bs b = linsert bs b := by
  induction bs with
  | nil =>
    simp [insertBook, binarySearchKeys, bsLoop_self, linsert]
  | cons x xs ih =>
    have hcons : (x.foreignID :: xs.map (fun z => z.foreignID)).Pairwise (· < ·) := h
    have hxs : sortedByID xs := (List.pairwise_cons.mp hcons).2
    have hkey0 : keyAt (x.foreignID :: xs.map (fun z => z.foreignID)) 0
        = x.foreignID := rfl
    rcases lt_trichotomy b.foreignID x.foreignID with hlt | heq | hgt
    · have hr := bsLoop_cons_ge x.foreignID (xs.map (fun z => z.foreignID))
        b.foreignID hcons (by omega)
      have hres : binarySearchKeys (x.foreignID :: xs.map (fun z => z.foreignID))
          b.foreignID = (0, false) := by
        simp only [binarySearchKeys, List.length_cons, hr]
        simp only [hkey0, Prod.mk.injEq, decide_eq_false_iff_not, not_and]
        exact ⟨trivial, fun _ => by omega⟩
      conv_rhs => rw [linsert]
      rw [if_pos hlt]
      simp only [insertBook, List.map_cons, hres]
      simp
    · have hr := bsLoop_cons_ge x.foreignID (xs.map (fun z => z.foreignID))
        b.foreignID hcons (by omega)
      have hres : binarySearchKeys (x.foreignID :: xs.map (fun z => z.foreignID))
          b.foreignID = (0, true) := by
        simp only [binarySearchKeys, List.length_cons, hr]
        simp only [hkey0, Prod.mk.injEq, decide_eq_true_eq]
        exact ⟨trivial, by omega, by omega⟩
      have hnlt : ¬ b.foreignID < x.foreignID := by omega
      conv_rhs => rw [linsert]
      rw [if_neg hnlt, if_pos heq]
      simp only [insertBook, List.map_cons, hres]
      simp [List.set]
    · have hr := bsLoop_cons_lt x.foreignID (xs.map (fun z => z.foreignID))
        b.foreignID hcons hgt
      have hkey1 : ∀ r, keyAt (x.foreignID :: xs.map (fun z => z.foreignID)) (r + 1)
          = keyAt (xs.map (fun z => z.foreignID)) r := fun r => rfl
      have hres : binarySearchKeys (x.foreignID :: xs.map (fun z => z.foreignID))
          b.foreignID
          = ((binarySearchKeys (xs.map (fun z => z.foreignID)) b.foreignID).1 + 1,
             (binarySearchKeys (xs.map (fun z => z.foreignID)) b.foreignID).2) := by
        simp only [binarySearchKeys, List.length_cons, hr]
        refine Prod.ext (by simp) ?_
        simp only [hkey1, decide_eq_decide]
        exact ⟨fun hc => ⟨by omega, hc.2⟩, fun hc => ⟨by omega, hc.2⟩⟩
      have hnlt : ¬ b.foreignID < x.foreignID := by omega
      have hneq : ¬ b.foreignID = x.foreignID := by omega
      conv_rhs => rw [linsert]
      rw [if_neg hnlt, if_neg hneq, ← ih hxs]
      simp only [insertBook, List.map_cons, hres]
      cases hfound : (binarySearchKeys (xs.map (fun z => z.foreignID)) b.foreignID).2 with
      | true => simp [List.set]
      | false => simp

/-- Observer: the edition stored under foreign ID `id`, if any (first
match). -/
def lookupB (bs : List bookResource) (id : Int) : Option bookResource :=
  bs.find? (fun z => z.foreignID == id)

/-- Strict `Option.orElse` used by the lookup characterizations. -/
def oelse (a b : Option bookResource) : Option bookResource :=
  match a with
  | some x => some x
  | none => b

/-- The last element of `l` carrying foreign ID `id`, if any. -/
def lastF : List bookResource → Int → Option bookResource
  | [], _ => none
  | b :: l, id => oelse (lastF l id) (if b.foreignID = id then some b else none)

theorem oelse_assoc (a b c : Option bookResource) :
    oelse (oelse a b) c = oelse a (oelse b c) := by
  cases a <;> simp [oelse]

theorem oelse_self (a b : Option bookResource) :
    oelse a (oelse a b) = oelse a b := by
  cases a <;> simp [oelse]

/-- Keys appearing after a linear insert come from the insert or the
original list. -/
theorem mem_linsert_keys (bs : List bookResource) (b : bookResource) :
    ∀ y ∈ (linsert bs b).map (fun z => z.foreignID),
      y = b.foreignID ∨ y ∈ bs.map (fun z => z.foreignID) := by
  induction bs with
  | nil => simp [linsert]
  | cons x xs ih =>
    intro y hy
    rw [linsert] at hy
    by_cases h1 : b.foreignID < x.foreignID
    · rw [if_pos h1] at hy
      simp at hy
      rcases hy with hy | hy | hy
      · exact Or.inl hy
      · exact Or.inr (by simp [hy])
      · exact Or.inr (by simp; exact Or.inr hy)
    · rw [if_neg h1] at hy
      by_cases h2 : b.foreignID = x.foreignID
      · rw [if_pos h2] at hy
        simp at hy
        rcases hy with hy | hy
        · exact Or.inl hy
        · exact Or.inr (by simp; exact Or.inr hy)
      · rw [if_neg h2] at hy
        simp at hy
        rcases hy with hy | hy
        · exact Or.inr (by simp [hy])
        · rcases ih y (by simpa using hy) with hz | hz
          · exact Or.inl hz
          · exact Or.inr (by simp; exact Or.inr (by simpa using hz))

/-- Linear insert preserves the sortedness invariant. -/
theorem linsert_sorted (bs : List bookResource) (b : bookResource)
    (h : sortedByID bs) : sortedByID (linsert bs b) := by
  induction bs with
  | nil =>
    simp [linsert, sortedByID]
  | cons x xs ih =>
    have hcons : (x.foreignID :: xs.map (fun z => z.foreignID)).Pairwise (· < ·) := h
    have hhead : ∀ y ∈ xs.map (fun z => z.foreignID), x.foreignID < y :=
      (List.pairwise_cons.mp hcons).1
    have hxs : sortedByID xs := (List.pairwise_cons.mp hcons).2
    rw [linsert]
    by_cases h1 : b.foreignID < x.foreignID
    · rw [if_pos h1]
      show (b.foreignID :: x.foreignID :: xs.map (fun z => z.foreignID)).Pairwise (· < ·)
      refine List.pairwise_cons.mpr ⟨?_, hcons⟩
      intro y hy
      simp at hy
      rcases hy with hy | hy
      · omega
      · have := hhead y (by simpa using hy)
        omega
    · rw [if_neg h1]
      by_cases h2 : b.foreignID = x.foreignID
      · rw [if_pos h2]
        show (b.foreignID :: xs.map (fun z => z.foreignID)).Pairwise (· < ·)
        refine List.pairwise_cons.mpr ⟨?_, hxs⟩
        intro y hy
        have := hhead y hy
        omega
      · rw [if_neg h2]
        show (x.foreignID :: (linsert xs b).map (fun z => z.foreignID)).Pairwise (· < ·)
        refine List.pairwise_cons.mpr ⟨?_, ih hxs⟩
        intro y hy
        rcases mem_linsert_keys xs b y hy with hz | hz
        · omega
        · exact hhead y hz

/-- Lookup after a linear insert: the inserted edition wins on its own key
and nothing else changes, on sorted inputs. -/
theorem lookupB_linsert (bs : List bookResource) (b : bookResource) (id : Int)
    (h : sortedByID bs) :
    lookupB (linsert bs b) id = if id = b.foreignID then some b else lookupB bs id := by
  induction bs with
  | nil =>
    by_cases hid : id = b.foreignID
    · simp [linsert, lookupB, hid]
    · have hb : (b.foreignID == id) = false := by
        simp
        omega
      simp [linsert, lookupB, List.find?, hb, hid]
  | cons x xs ih =>
    have hcons : (x.foreignID :: xs.map (fun z => z.foreignID)).Pairwise (· < ·) := h
    have hxs : sortedByID xs := (List.pairwise_cons.mp hcons).2
    rw [linsert]
    by_cases h1 : b.foreignID < x.foreignID
    · rw [if_pos h1]
      by_cases hid : id = b.foreignID
      · rw [if_pos hid]
        unfold lookupB
        rw [List.find?_cons_of_pos _ (by simp [hid])]
      · rw [if_neg hid]
        unfold lookupB
        rw [List.find?_cons_of_neg _ (by simp; omega)]
    · rw [if_neg h1]
      by_cases h2 : b.foreignID = x.foreignID
      · rw [if_pos h2]
        by_cases hid : id = b.foreignID
        · rw [if_pos hid]
          unfold lookupB
          rw [List.find?_cons_of_pos _ (by simp [hid])]
        · rw [if_neg hid]
          unfold lookupB
          rw [List.find?_cons_of_neg _ (by simp; omega),
            List.find?_cons_of_neg _ (by simp; omega)]
      · rw [if_neg h2]
        by_cases hx : x.foreignID = id
        · have hid : ¬ id = b.foreignID := by omega
          rw [if_neg hid]
          unfold lookupB
          rw [List.find?_cons_of_pos _ (by simp [hx]),
            List.find?_cons_of_pos _ (by simp [hx])]
        · unfold lookupB
          rw [List.find?_cons_of_neg _ (by simp; omega),
            List.find?_cons_of_neg _ (by simp; omega)]
          exact ih hxs

/-- In a sorted list, no tail element carries the head key. -/
theorem lookupB_tail_none (x : bookResource) (xs : List bookResource)
    (h : sortedByID (x :: xs)) : lookupB xs x.foreignID = none := by
  have hcons : (x.foreignID :: xs.map (fun z => z.foreignID)).Pairwise (· < ·) := h
  have hhead : ∀ y ∈ xs.map (fun z => z.foreignID), x.foreignID < y :=
    (List.pairwise_cons.mp hcons).1
  unfold lookupB
  rw [List.find?_eq_none]
  intro z hz
  have := hhead z.foreignID (by simp; exact ⟨z, hz, rfl⟩)
  simp
  omega

/-- Sorted edition lists are determined by their per-key lookups. -/
theorem sorted_ext (bs cs : List bookResource)
    (hbs : sortedByID bs) (hcs : sortedByID cs)
    (h : ∀ id, lookupB bs id = lookupB cs id) : bs = cs := by
  induction bs generalizing cs with
  | nil =>
    cases cs with
    | nil => rfl
    | cons c cs =>
      have := h c.foreignID
      unfold lookupB at this
      rw [List.find?_cons_of_pos _ (by simp)] at this
      simp [List.find?] at this
  | cons x xs ih =>
    cases cs with
    | nil =>
      have := h x.foreignID
      unfold lookupB at this
      rw [List.find?_cons_of_pos _ (by simp)] at this
      simp [List.find?] at this
    | cons c cs =>
      have hxcs : sortedByID xs := (List.pairwise_cons.mp
        (show (x.foreignID :: xs.map (fun z => z.foreignID)).Pairwise (· < ·) from hbs)).2
      have hccs : sortedByID cs := (List.pairwise_cons.mp
        (show (c.foreignID :: cs.map (fun z => z.foreignID)).Pairwise (· < ·) from hcs)).2
      have hkey : x.foreignID = c.foreignID := by
        by_contra hne
        have h1 := h x.foreignID
        have h2 := h c.foreignID
        unfold lookupB at h1 h2
        have e1 : List.find? (fun z => z.foreignID == x.foreignID) (x :: xs)
            = some x := List.find?_cons_of_pos _ (by simp)
        have e2 : List.find? (fun z => z.foreignID == x.foreignID) (c :: cs)
            = List.find? (fun z => z.foreignID == x.foreignID) cs :=
          List.find?_cons_of_neg _ (by simp; omega)
        have e3 : List.find? (fun z => z.foreignID == c.foreignID) (c :: cs)
            = some c := List.find?_cons_of_pos _ (by simp)
        have e4 : List.find? (fun z => z.foreignID == c.foreignID) (x :: xs)
            = List.find? (fun z => z.foreignID == c.foreignID) xs :=
          List.find?_cons_of_neg _ (by simp; omega)
        rw [e1, e2] at h1
        rw [e4, e3] at h2
        have hx1 : x ∈ cs := by
          have hmem := List.mem_of_find?_eq_some h1.symm
          exact hmem
        have hc2 : c ∈ xs := List.mem_of_find?_eq_some h2
        have hlt1 : c.foreignID < x.foreignID := by
          have hhead : ∀ y ∈ cs.map (fun z => z.foreignID), c.foreignID < y :=
            (List.pairwise_cons.mp
              (show (c.foreignID :: cs.map (fun z => z.foreignID)).Pairwise (· < ·) from hcs)).1
          exact hhead x.foreignID (by simp; exact ⟨x, hx1, rfl⟩)
        have hlt2 : x.foreignID < c.foreignID := by
          have hhead : ∀ y ∈ xs.map (fun z => z.foreignID), x.foreignID < y :=
            (List.pairwise_cons.mp
              (show (x.foreignID :: xs.map (fun z => z.foreignID)).Pairwise (· < ·) from hbs)).1
          exact hhead c.foreignID (by simp; exact ⟨c, hc2, rfl⟩)
        omega
      have hhd : x = c := by
        have h1 := h x.foreignID
        unfold lookupB at h1
        have e1 : List.find? (fun z => z.foreignID == x.foreignID) (x :: xs)
            = some x := List.find?_cons_of_pos _ (by simp)
        have e2 : List.find? (fun z => z.foreignID == x.foreignID) (c :: cs)
            = some c := List.find?_cons_of_pos _ (by simp [hkey])
        rw [e1, e2] at h1
        exact Option.some.inj h1
      subst hhd
      refine congrArg (x :: ·) (ih cs hxcs hccs ?_)
      intro id
      by_cases hid : id = x.foreignID
      · rw [hid, lookupB_tail_none x xs hbs, lookupB_tail_none x cs hcs]
      · have h1 := h id
        unfold lookupB at h1 ⊢
        have e1 : List.find? (fun z => z.foreignID == id) (x :: xs)
            = List.find? (fun z => z.foreignID == id) xs :=
          List.find?_cons_of_neg _ (by simp; omega)
        have e2 : List.find? (fun z => z.foreignID == id) (x :: cs)
            = List.find? (fun z => z.foreignID == id) cs :=
          List.find?_cons_of_neg _ (by simp; omega)
        rw [e1, e2] at h1
        exact h1

/-! ## The edition-insertion loop of `denormalizeEditions`

`denormalizeEditions` (`controller.go` lines 772-804) walks the requested
`bookIDs`, fetches each edition through `getter.GetBook`, skips fetch or
decode failures and editions whose wrapping work does not hold exactly one
book, rebinds the ID to the canonical `w.Books[0].ForeignID` (merged
editions), and insert-or-replaces into `Work.books`. -/

/-- The edition obtained from `getter.GetBook(bookID)` under the canonical
ID. `getBook` bundles the fetch and the (ignored-on-error) unmarshal:
`none` models a fetch or decode failure, mirroring the `continue` paths.
The `length ≠ 1` skip is the code's `len(w.Books) != 1` check; the
canonical edition is `w.Books[0]`, whose own `ForeignID` may differ from
the requested `bookID`. -/
def canonicalBook (getBook : Int → Option workResource) (bookID : Int) :
    Option bookResource :=
  match getBook bookID with
  | none => none
  | some w =>
    match w.books with
    | [b] => some b
    | _ => none

/-- The per-work insertion loop of `denormalizeEditions`. -/
def denormEdLoop (getBook : Int → Option workResource)
    (books : List bookResource) (bookIDs : List Int) : List bookResource :=
  bookIDs.foldl
    (fun acc bookID =>
      match canonicalBook getBook bookID with
      | none => acc
      | some b => insertBook acc b)
    books

/-- The loop is the fold of `insertBook` over the fetched editions. -/
theorem denormEdLoop_eq_fold (getBook : Int → Option workResource)
    (books : List bookResource) (bookIDs : List Int) :
    denormEdLoop getBook books bookIDs
      = (bookIDs.filterMap (canonicalBook getBook)).foldl insertBook books := by
  induction bookIDs generalizing books with
  | nil => rfl
  | cons bid rest ih =>
    unfold denormEdLoop at ih ⊢
    cases hc : canonicalBook getBook bid with
    | none => simp [List.foldl_cons, hc, ih]
    | some b => simp [List.foldl_cons, hc, ih]

/-- Folding inserts preserves sortedness. -/
theorem foldl_insertBook_sorted (l : List bookResource)
    (books : List bookResource) (h : sortedByID books) :
    sortedByID (l.foldl insertBook books) := by
  induction l generalizing books with
  | nil => exact h
  | cons b rest ih =>
    rw [List.foldl_cons, insertBook_eq_linsert books b h]
    exact ih (linsert books b) (linsert_sorted books b h)

/-- Lookup after folding inserts: last write per key wins, the original
entries persist on untouched keys. -/
theorem foldl_insertBook_lookup (l : List bookResource)
    (books : List bookResource) (h : sortedByID books) (id : Int) :
    lookupB (l.foldl insertBook books) id
      = oelse (lastF l id) (lookupB books id) := by
  induction l generalizing books with
  | nil => simp [lastF, oelse]
  | cons b rest ih =>
    rw [List.foldl_cons, insertBook_eq_linsert books b h]
    rw [ih (linsert books b) (linsert_sorted books b h)]
    rw [lookupB_linsert books b id h]
    show oelse (lastF rest id) _ = oelse (oelse (lastF rest id) _) _
    rw [oelse_assoc]
    congr 1
    by_cases hid : id = b.foreignID
    · simp [oelse, hid]
    · have hne : ¬ b.foreignID = id := by omega
      simp [oelse, hid, hne]

/-- Folding the same batch twice is the same as folding it once. -/
theorem foldl_insertBook_idem (l : List bookResource)
    (books : List bookResource) (h : sortedByID books) :
    l.foldl insertBook (l.foldl insertBook books) = l.foldl insertBook books := by
  refine sorted_ext _ _
    (foldl_insertBook_sorted l _ (foldl_insertBook_sorted l books h))
    (foldl_insertBook_sorted l books h) ?_
  intro id
  rw [foldl_insertBook_lookup l _ (foldl_insertBook_sorted l books h) id,
    foldl_insertBook_lookup l books h id, oelse_self]

/-- `lastF` finds something exactly when some element carries the key. -/
theorem lastF_isSome_iff (l : List bookResource) (id : Int) :
    (lastF l id).isSome ↔ ∃ b ∈ l, b.foreignID = id := by
  induction l with
  | nil => simp [lastF]
  | cons b rest ih =>
    rw [lastF]
    cases hl : lastF rest id with
    | some c =>
      simp only [oelse, Option.isSome_some, true_iff]
      have := ih.mp (by rw [hl]; rfl)
      obtain ⟨d, hd, hid⟩ := this
      exact ⟨d, List.mem_cons_of_mem b hd, hid⟩
    | none =>
      by_cases hid : b.foreignID = id
      · simp [oelse, hid]
      · rw [hl] at ih
        simp only [Option.isSome_none, Bool.false_eq_true, false_iff] at ih
        simp only [oelse, hid, if_neg, not_false_iff, Option.isSome_none,
          Bool.false_eq_true, false_iff]
        intro hcon
        obtain ⟨d, hd, hdid⟩ := hcon
        rcases List.mem_cons.mp hd with hd | hd
        · exact hid (hd ▸ hdid)
        · exact ih ⟨d, hd, hdid⟩

/-- `lookupB` finds something exactly when some element carries the key. -/
theorem lookupB_isSome_iff (bs : List bookResource) (id : Int) :
    (lookupB bs id).isSome ↔ ∃ b ∈ bs, b.foreignID = id := by
  unfold lookupB
  rw [List.find?_isSome]
  constructor
  · intro ⟨b, hb, hid⟩
    exact ⟨b, hb, by simpa using hid⟩
  · intro ⟨b, hb, hid⟩
    exact ⟨b, hb, by simpa using hid⟩

/-- A sorted list holding some key holds it exactly once. -/
theorem countP_eq_one_of_sorted_mem (bs : List bookResource) (id : Int)
    (h : sortedByID bs) (hmem : ∃ b ∈ bs, b.foreignID = id) :
    bs.countP (fun b => b.foreignID == id) = 1 := by
  induction bs with
  | nil => simp at hmem
  | cons x xs ih =>
    have hcons : (x.foreignID :: xs.map (fun z => z.foreignID)).Pairwise (· < ·) := h
    have hhead : ∀ y ∈ xs.map (fun z => z.foreignID), x.foreignID < y :=
      (List.pairwise_cons.mp hcons).1
    have hxs : sortedByID xs := (List.pairwise_cons.mp hcons).2
    by_cases hx : x.foreignID = id
    · rw [List.countP_cons_of_pos _ _ (by simp [hx])]
      have hz : xs.countP (fun b => b.foreignID == id) = 0 := by
        rw [List.countP_eq_zero]
        intro b hb
        have := hhead b.foreignID (by simp; exact ⟨b, hb, rfl⟩)
        simp
        omega
      omega
    · rw [List.countP_cons_of_neg _ _ (by simp [hx])]
      refine ih hxs ?_
      obtain ⟨b, hb, hid⟩ := hmem
      rcases List.mem_cons.mp hb with hb | hb
      · exact absurd (hb ▸ hid) hx
      · exact ⟨b, hb, hid⟩

/-- Membership in the loop output, characterized. -/
theorem denormEdLoop_mem_iff (getBook : Int → Option workResource)
    (books : List bookResource) (bookIDs : List Int) (h : sortedByID books)
    (id : Int) :
    (∃ b ∈ denormEdLoop getBook books bookIDs, b.foreignID = id) ↔
      ((∃ b ∈ books, b.foreignID = id)
        ∨ ∃ bid ∈ bookIDs, ∃ b, canonicalBook getBook bid = some b
            ∧ b.foreignID = id) := by
  rw [← lookupB_isSome_iff, denormEdLoop_eq_fold,
    foldl_insertBook_lookup _ _ h id]
  have hsplit : ∀ a b : Option bookResource,
      (oelse a b).isSome ↔ (a.isSome ∨ b.isSome) := by
    intro a b
    cases a <;> simp [oelse]
  rw [hsplit, lookupB_isSome_iff, lastF_isSome_iff, or_comm]
  constructor
  · intro hc
    rcases hc with hc | hc
    · exact Or.inl hc
    · obtain ⟨b, hb, hid⟩ := hc
      obtain ⟨bid, hbid, hcan⟩ := List.mem_filterMap.mp hb
      exact Or.inr ⟨bid, hbid, b, hcan, hid⟩
  · intro hc
    rcases hc with hc | hc
    · exact Or.inl hc
    · obtain ⟨bid, hbid, b, hcan, hid⟩ := hc
      exact Or.inr ⟨b, List.mem_filterMap.mpr ⟨bid, hbid, hcan⟩, hid⟩

/-- C1: for every `denormalizeEditions(workID, bookIDs)` call in which the
work decodes successfully (with the at-rest sortedness invariant on its
books), the resulting `Work.books` is strictly ascending by foreign ID
(hence duplicate-free), its set of foreign IDs is the union of the
pre-existing editions with the canonical IDs of the successfully fetched
editions, and any canonical fetched ID — in particular one shared by two
distinct requested `bookIDs` (a merged edition) — occurs in exactly one
entry. -/
theorem C1_denorm_editions_sorted_union (getBook : Int → Option workResource)
    (books : List bookResource) (bookIDs : List Int) (h : sortedByID books) :
    sortedByID (denormEdLoop getBook books bookIDs) ∧
    (∀ id : Int,
      (∃ b ∈ denormEdLoop getBook books bookIDs, b.foreignID = id) ↔
        ((∃ b ∈ books, b.foreignID = id)
          ∨ ∃ bid ∈ bookIDs, ∃ b, canonicalBook getBook bid = some b
              ∧ b.foreignID = id)) ∧
    (∀ id : Int,
      (∃ bid ∈ bookIDs, ∃ b, canonicalBook getBook bid = some b
          ∧ b.foreignID = id) →
        (denormEdLoop getBook books bookIDs).countP
          (fun b => b.foreignID == id) = 1) := by
  have hsorted : sortedByID (denormEdLoop getBook books bookIDs) := by
    rw [denormEdLoop_eq_fold]
    exact foldl_insertBook_sorted _ _ h
  refine ⟨hsorted, fun id => denormEdLoop_mem_iff getBook books bookIDs h id, ?_⟩
  intro id hin
  refine countP_eq_one_of_sorted_mem _ id hsorted ?_
  exact (denormEdLoop_mem_iff getBook books bookIDs h id).mpr (Or.inr hin)

/-- Book used by concrete witnesses. -/
def mkBook (id : Int) : bookResource :=
  ⟨id, "", "", "", 0, 0, []⟩

/-- Work used by concrete witnesses: `workID` 10 wrapping exactly one
edition with canonical ID 1 — the merged-edition shape of spec scenario 4. -/
def mergedWork : workResource :=
  ⟨10, "", "", "", 0, 0, [mkBook 1], [], []⟩

/-- Getter used by the C1 witness: `GetBook(1)` and `GetBook(2)` both
return the same work whose single edition has canonical ID 1. -/
def mergedGetBook (bookID : Int) : Option workResource :=
  if bookID = 1 ∨ bookID = 2 then some mergedWork else none

/-- Witness for C1 at the merged-edition scenario `workEdge(10, {1, 2})`. -/
theorem C1_denorm_editions_sorted_union_witness :
    sortedByID ([] : List bookResource) ∧
    (sortedByID (denormEdLoop mergedGetBook [] [1, 2]) ∧
    (∀ id : Int,
      (∃ b ∈ denormEdLoop mergedGetBook [] [1, 2], b.foreignID = id) ↔
        ((∃ b ∈ ([] : List bookResource), b.foreignID = id)
          ∨ ∃ bid ∈ [(1 : Int), 2], ∃ b, canonicalBook mergedGetBook bid = some b
              ∧ b.foreignID = id)) ∧
    (∀ id : Int,
      (∃ bid ∈ [(1 : Int), 2], ∃ b, canonicalBook mergedGetBook bid = some b
          ∧ b.foreignID = id) →
        (denormEdLoop mergedGetBook [] [1, 2]).countP
          (fun b => b.foreignID == id) = 1)) :=
  ⟨by decide, C1_denorm_editions_sorted_union mergedGetBook [] [1, 2] (by decide)⟩

/-! ## The full `denormalizeEditions` pipeline

`denormalizeEditions` streams the work bytes returned by the getter
through an ETag writer while decoding, runs the insertion loop, re-encodes
through a second ETag writer, and skips both the cache write and the
upward `authorEdge` enqueues when the two digests agree. The codec and
digest are parameters: `decode`/`encode` model the sonic JSON round trip
and `etag` the streaming hash. -/

/-- The decoded work after the insertion loop (`none` when the work bytes
fail to decode; the code expires the work key and errors out there). -/
def denormWork (decode : Bytes → Option workResource)
    (getBook : Int → Option workResource) (wb : Bytes) (bookIDs : List Int) :
    Option workResource :=
  match decode wb with
  | none => none
  | some w => some { w with books := denormEdLoop getBook w.books bookIDs }

/-- Observable outcome of one `denormalizeEditions` run: the bytes written
to the work key, if any, and the author IDs of the upward `authorEdge`
enqueues. -/
structure DenormEdOutcome where
  written : Option Bytes
  enqueuedAuthors : List Int
deriving DecidableEq, Repr

/-- `denormalizeEditions` (`controller.go` lines 748-836): empty batches
return immediately; a getter failure or decode failure returns an error
(`none`); matching old/new ETags skip the write and the upward enqueues;
otherwise the re-encoded work is written and one `authorEdge` per work
author is enqueued. -/
def denormalizeEditionsM (decode : Bytes → Option workResource)
    (encode : workResource → Bytes) (etag : Bytes → Nat)
    (getWorkBytes : Option Bytes) (getBook : Int → Option workResource)
    (bookIDs : List Int) : Option DenormEdOutcome :=
  if bookIDs.isEmpty then some ⟨none, []⟩
  else
    match getWorkBytes with
    | none => none
    | some wb =>
      match denormWork decode getBook wb bookIDs with
      | none => none
      | some work2 =>
        let out := encode work2
        if etag out = etag wb then some ⟨none, []⟩
        else some ⟨some out, work2.authors.map (fun a => a.foreignID)⟩

/-- The work bytes left in place by one `denormalizeEditions` run against a
read-through getter: the written bytes on a write, the prior bytes
otherwise. -/
def runDenormEd (decode : Bytes → Option workResource)
    (encode : workResource → Bytes) (etag : Bytes → Nat)
    (getBook : Int → Option workResource) (bookIDs : List Int)
    (wb : Bytes) : Bytes :=
  match denormalizeEditionsM decode encode etag (some wb) getBook bookIDs with
  | some o => o.written.getD wb
  | none => wb

/-- The insertion loop is idempotent on sorted books. -/
theorem denormEdLoop_idem (getBook : Int → Option workResource)
    (books : List bookResource) (bookIDs : List Int) (h : sortedByID books) :
    denormEdLoop getBook (denormEdLoop getBook books bookIDs) bookIDs
      = denormEdLoop getBook books bookIDs := by
  simp only [denormEdLoop_eq_fold]
  exact foldl_insertBook_idem _ _ h

/-- A non-empty `denormalizeEditions` run over decodable work bytes,
reduced to its ETag comparison. -/
theorem denormEd_run (decode : Bytes → Option workResource)
    (encode : workResource → Bytes) (etag : Bytes → Nat)
    (getBook : Int → Option workResource) (bookIDs : List Int)
    (wb : Bytes) (w : workResource)
    (hbe : ¬ bookIDs.isEmpty = true) (hdec : decode wb = some w) :
    denormalizeEditionsM decode encode etag (some wb) getBook bookIDs
      = (if etag (encode { w with books := denormEdLoop getBook w.books bookIDs })
            = etag wb
         then some ⟨none, []⟩
         else some ⟨some (encode { w with books := denormEdLoop getBook w.books bookIDs }),
                    w.authors.map (fun a => a.foreignID)⟩) := by
  unfold denormalizeEditionsM denormWork
  rw [if_neg hbe]
  simp only [hdec]

/-- A run whose insertion loop leaves the decoded work unchanged and whose
new digest matches the prior digest skips the write and the enqueues. -/
theorem denormEd_skip (decode : Bytes → Option workResource)
    (encode : workResource → Bytes) (etag : Bytes → Nat)
    (getBook : Int → Option workResource) (bookIDs : List Int)
    (wb1 : Bytes) (w1 : workResource)
    (hbe : ¬ bookIDs.isEmpty = true) (hdec1 : decode wb1 = some w1)
    (hfix : denormEdLoop getBook w1.books bookIDs = w1.books)
    (het : etag (encode w1) = etag wb1) :
    denormalizeEditionsM decode encode etag (some wb1) getBook bookIDs
      = some ⟨none, []⟩ := by
  rw [denormEd_run decode encode etag getBook bookIDs wb1 w1 hbe hdec1]
  have hsame : { w1 with books := denormEdLoop getBook w1.books bookIDs } = w1 := by
    rw [hfix]
  rw [hsame, if_pos het]

/-- C2: denormalization is idempotent through the ETag short-circuit.
Running `denormalizeEditions` a second time over the bytes left by the
first run (the getter reading the cached work back, `GetBook` unchanged)
produces an encoding whose digest equals the digest of those cached bytes,
so the second run returns without writing and without enqueuing any upward
`authorEdge`, and the final work bytes after two runs equal the bytes
after one. Hypotheses: the prior bytes decode to a work with sorted books,
and the codec round-trips on the work produced by the run. -/
theorem C2_denorm_editions_idempotent (decode : Bytes → Option workResource)
    (encode : workResource → Bytes) (etag : Bytes → Nat)
    (getBook : Int → Option workResource) (bookIDs : List Int)
    (wb0 : Bytes) (w0 : workResource)
    (hdec : decode wb0 = some w0) (hs : sortedByID w0.books)
    (hrt : decode (encode { w0 with books := denormEdLoop getBook w0.books bookIDs })
      = some { w0 with books := denormEdLoop getBook w0.books bookIDs }) :
    denormalizeEditionsM decode encode etag
        (some (runDenormEd decode encode etag getBook bookIDs wb0))
        getBook bookIDs = some ⟨none, []⟩ ∧
    runDenormEd decode encode etag getBook bookIDs
        (runDenormEd decode encode etag getBook bookIDs wb0)
      = runDenormEd decode encode etag getBook bookIDs wb0 := by
  have hfinal : ∀ wb1, denormalizeEditionsM decode encode etag (some wb1)
        getBook bookIDs = some ⟨none, []⟩ →
      runDenormEd decode encode etag getBook bookIDs wb1 = wb1 := by
    intro wb1 hrun
    unfold runDenormEd
    rw [hrun]
    rfl
  by_cases hbe : bookIDs.isEmpty
  · have hrun : ∀ wb1, denormalizeEditionsM decode encode etag (some wb1)
        getBook bookIDs = some ⟨none, []⟩ := by
      intro wb1
      unfold denormalizeEditionsM
      rw [if_pos hbe]
    exact ⟨hrun _, hfinal _ (hrun _)⟩
  · have hbooks1 : ({ w0 with books := denormEdLoop getBook w0.books bookIDs }).books
        = denormEdLoop getBook w0.books bookIDs := rfl
    have hfix : denormEdLoop getBook
        ({ w0 with books := denormEdLoop getBook w0.books bookIDs }).books bookIDs
        = ({ w0 with books := denormEdLoop getBook w0.books bookIDs }).books := by
      rw [hbooks1]
      exact denormEdLoop_idem getBook w0.books bookIDs hs
    have hrun1 := denormEd_run decode encode etag getBook bookIDs wb0 w0 hbe hdec
    by_cases het : etag (encode { w0 with books := denormEdLoop getBook w0.books bookIDs })
        = etag wb0
    · have hbytes : runDenormEd decode encode etag getBook bookIDs wb0 = wb0 := by
        unfold runDenormEd
        rw [hrun1, if_pos het]
        rfl
      rw [hbytes]
      have hskip : denormalizeEditionsM decode encode etag (some wb0) getBook bookIDs
          = some ⟨none, []⟩ := by
        rw [hrun1, if_pos het]
      exact ⟨hskip, hfinal _ hskip⟩
    · have hbytes : runDenormEd decode encode etag getBook bookIDs wb0
          = encode { w0 with books := denormEdLoop getBook w0.books bookIDs } := by
        unfold runDenormEd
        rw [hrun1, if_neg het]
        rfl
      rw [hbytes]
      have hskip := denormEd_skip decode encode etag getBook bookIDs
        (encode { w0 with books := denormEdLoop getBook w0.books bookIDs })
        { w0 with books := denormEdLoop getBook w0.books bookIDs }
        hbe hrt hfix rfl
      exact ⟨hskip, hfinal _ hskip⟩

/-- Work used by the C2 witness. -/
def idemWork : workResource :=
  ⟨10, "", "", "", 0, 0, [], [], []⟩

/-- Witness for C2 at a concrete degenerate codec: the prior bytes `[0]`
decode to `idemWork`, the getter has no editions to offer, and the second
run of `denormalizeEditions` writes nothing and enqueues nothing. -/
theorem C2_denorm_editions_idempotent_witness :
    ((fun _ => some idemWork : Bytes → Option workResource) [0] = some idemWork ∧
     sortedByID idemWork.books ∧
     (fun _ => some idemWork : Bytes → Option workResource)
        ((fun _ => ([0] : Bytes)) { idemWork with
          books := denormEdLoop (fun _ => none) idemWork.books [5] })
       = some { idemWork with
          books := denormEdLoop (fun _ => none) idemWork.books [5] }) ∧
    (denormalizeEditionsM (fun _ => some idemWork) (fun _ => [0]) (fun _ => 0)
        (some (runDenormEd (fun _ => some idemWork) (fun _ => [0]) (fun _ => 0)
          (fun _ => none) [5] [0]))
        (fun _ => none) [5] = some ⟨none, []⟩ ∧
     runDenormEd (fun _ => some idemWork) (fun _ => [0]) (fun _ => 0)
        (fun _ => none) [5]
        (runDenormEd (fun _ => some idemWork) (fun _ => [0]) (fun _ => 0)
          (fun _ => none) [5] [0])
      = runDenormEd (fun _ => some idemWork) (fun _ => [0]) (fun _ => 0)
          (fun _ => none) [5] [0]) :=
  ⟨⟨rfl, by decide, rfl⟩,
    C2_denorm_editions_idempotent (fun _ => some idemWork) (fun _ => [0])
      (fun _ => 0) (fun _ => none) [5] [0] idemWork rfl (by decide) rfl⟩

/-! ## Controller read path (`getBook`, `getWork`, `getAuthor`)

Each operation runs inside a singleflight group; the model covers one
flight. The cache read for the operation's key is an input
(`none` = not found; `some (bytes, ttl)` = found with remaining TTL, which
the contract allows to be non-positive for an expired entry). Cache writes
performed under the operation's key are collected in `writes`; the
asynchronous denormalization/refresh goroutines spawned after a fetch are
outside the request path and are modelled separately. -/

/-- Error classes distinguished by the controller on the read path. -/
inductive FetchErr where
  | notFound
  | rateLimited
  | other
deriving DecidableEq, Repr

/-- Observable outcome of one read-path operation: the returned error (if
any), bytes and TTL of the `ttlpair`, the cache writes under the entity's
key, and whether the Getter was invoked. -/
structure GetResult where
  err : Option FetchErr
  bytes : Bytes
  ttl : Int
  writes : List (Bytes × Int)
  getterCalled : Bool
deriving DecidableEq, Repr

/-- The cache-miss tail of `getBook` (`controller.go` lines 363-392): a
not-found from the Getter caches the `MISSING` sentinel for `missingTTL`;
other errors write nothing; success writes the fresh bytes with a fuzzed
edition TTL and returns them. -/
def getBookMiss (getter : Except FetchErr Bytes) (r : ℚ) : GetResult :=
  match getter with
  | .error .notFound =>
    ⟨some .notFound, [], 0, [(missingSentinel, missingTTL)], true⟩
  | .error e => ⟨some e, [], 0, [], true⟩
  | .ok bs =>
    ⟨none, bs, fuzz editionTTL 2 r, [(bs, fuzz editionTTL 2 r)], true⟩

/-- `getBook` (`controller.go` lines 354-393). A valid cache hit returns
the cached bytes with their remaining TTL; a cached `MISSING` sentinel
returns not-found with the zero `ttlpair{}`; otherwise the Getter is
invoked. -/
def getBookModel (cached : Option (Bytes × Int))
    (getter : Except FetchErr Bytes) (r : ℚ) : GetResult :=
  match cached with
  | some (bs, ttl) =>
    if ttl > 0 then
      if bs = missingSentinel then ⟨some .notFound, [], 0, [], false⟩
      else ⟨none, bs, ttl, [], false⟩
    else getBookMiss getter r
  | none => getBookMiss getter r

/-- The bytes the cache read produced (`nil` on a miss): `getWork` keeps
them to return stale state while its refresh settles. -/
def cachedBytesOf (cached : Option (Bytes × Int)) : Bytes :=
  match cached with
  | some (bs, _) => bs
  | none => []

/-- `getWork` (`controller.go` lines 395-467). Identical shape to
`getBook` until the fetch succeeds; then the fresh bytes are written with
a fuzzed work TTL, a background refresh is spawned, and — when the cache
held any previous bytes (including expired ones) — those previous bytes,
not the fresh ones, are returned. -/
def getWorkModel (cached : Option (Bytes × Int))
    (getter : Except FetchErr Bytes) (r : ℚ) : GetResult :=
  let stale := cachedBytesOf cached
  let miss :=
    match getter with
    | .error .notFound =>
      ⟨some .notFound, [], 0, [(missingSentinel, missingTTL)], true⟩
    | .error e => ⟨some e, [], 0, [], true⟩
    | .ok bs =>
      if stale.length > 0 then
        ⟨none, stale, fuzz workTTL (3 / 2) r, [(bs, fuzz workTTL (3 / 2) r)], true⟩
      else
        ⟨none, bs, fuzz workTTL (3 / 2) r, [(bs, fuzz workTTL (3 / 2) r)], true⟩
  match cached with
  | some (bs, ttl) =>
    if ttl > 0 then
      if bs = missingSentinel then ⟨some .notFound, [], 0, [], false⟩
      else ⟨none, bs, ttl, [], false⟩
    else miss
  | none => miss

/-- C3 counterexample: with the `MISSING` sentinel cached and 5ns of TTL
remaining, `getBook` returns not-found without calling the Getter but
reports a zero TTL — not the remaining (or negated remaining) TTL the
claim describes. -/
theorem C3_negative_cache_cex :
    (getBookModel (some (missingSentinel, 5)) (Except.error FetchErr.other) 0).err
        = some FetchErr.notFound ∧
    (getBookModel (some (missingSentinel, 5)) (Except.error FetchErr.other) 0).getterCalled
        = false ∧
    (getBookModel (some (missingSentinel, 5)) (Except.error FetchErr.other) 0).ttl = 0 ∧
    ¬ ((getBookModel (some (missingSentinel, 5)) (Except.error FetchErr.other) 0).ttl = 5
        ∨ (getBookModel (some (missingSentinel, 5)) (Except.error FetchErr.other) 0).ttl
            = -5) := by
  refine ⟨rfl, rfl, rfl, ?_⟩
  intro hcon
  rcases hcon with hcon | hcon <;> simp [getBookModel] at hcon

/-- C3 (amended): a Getter not-found on a cache miss writes the `MISSING`
sentinel under the entity's key with `missingTTL`, and any later read that
finds the sentinel with positive remaining TTL returns not-found without
invoking the Getter — with a zero TTL in the returned pair. -/
theorem C3_negative_cache (getter : Except FetchErr Bytes) (r r2 : ℚ)
    (trem : Int) (hpos : 0 < trem) :
    getBookModel none (Except.error FetchErr.notFound) r
      = ⟨some FetchErr.notFound, [], 0, [(missingSentinel, missingTTL)], true⟩ ∧
    getBookModel (some (missingSentinel, trem)) getter r2
      = ⟨some FetchErr.notFound, [], 0, [], false⟩ := by
  constructor
  · rfl
  · simp only [getBookModel]
    rw [if_pos hpos]
    simp

/-- Witness for C3 (amended) at a sentinel with 1ns remaining. -/
theorem C3_negative_cache_witness :
    (0 : Int) < 1 ∧
    (getBookModel none (Except.error FetchErr.notFound) 0
      = ⟨some FetchErr.notFound, [], 0, [(missingSentinel, missingTTL)], true⟩ ∧
    getBookModel (some (missingSentinel, 1)) (Except.error FetchErr.other) 0
      = ⟨some FetchErr.notFound, [], 0, [], false⟩) :=
  ⟨by decide, C3_negative_cache (Except.error FetchErr.other) 0 0 1 (by decide)⟩

/-- C4 counterexample: with an expired entry `[1]` in the cache and the
Getter returning fresh bytes `[2]`, `getWork` writes the fresh bytes with
the fuzzed TTL but returns the stale bytes `[1]`, not the fresh bytes the
claim promises. -/
theorem C4_get_work_fresh_bytes_cex :
    (getWorkModel (some ([1], 0)) (Except.ok [2]) 0).writes = [([2], workTTL)] ∧
    (getWorkModel (some ([1], 0)) (Except.ok [2]) 0).bytes = [1] ∧
    (getWorkModel (some ([1], 0)) (Except.ok [2]) 0).bytes ≠ [2] := by
  have hf : fuzz workTTL (3 / 2) 0 = workTTL := by
    unfold fuzz
    norm_num
  refine ⟨?_, ?_, ?_⟩
  · show [([2], fuzz workTTL (3 / 2) 0)] = [([2], workTTL)]
    rw [hf]
  · rfl
  · intro hcon
    simp [getWorkModel, cachedBytesOf] at hcon

/-- C4 (amended): on a miss or expired entry with a successful fetch,
every document Get operation writes the freshly fetched bytes to the
cache with its fuzzed TTL. `getBook` returns those same fresh bytes in
all cases; `getWork` returns them only on a clean miss — when its cache
read found an expired entry holding previous bytes, `getWork` returns
those previous bytes (with the fresh TTL) while the fresh bytes go to the
cache. -/
theorem C4_get_doc_write_and_return (cached : Option (Bytes × Int))
    (fresh : Bytes) (r : ℚ)
    (hmiss : cached = none ∨ ∃ bs t, cached = some (bs, t) ∧ t ≤ 0) :
    getBookModel cached (Except.ok fresh) r
      = ⟨none, fresh, fuzz editionTTL 2 r,
         [(fresh, fuzz editionTTL 2 r)], true⟩ ∧
    getWorkModel cached (Except.ok fresh) r
      = ⟨none,
         if (cachedBytesOf cached).length > 0 then cachedBytesOf cached else fresh,
         fuzz workTTL (3 / 2) r,
         [(fresh, fuzz workTTL (3 / 2) r)], true⟩ := by
  constructor
  · rcases hmiss with hmiss | ⟨bs, t, hmiss, ht⟩
    · subst hmiss
      rfl
    · subst hmiss
      simp only [getBookModel]
      rw [if_neg (show ¬ t > 0 by omega)]
      rfl
  · rcases hmiss with hmiss | ⟨bs, t, hmiss, ht⟩
    · subst hmiss
      simp [getWorkModel, cachedBytesOf]
    · subst hmiss
      simp only [getWorkModel, cachedBytesOf]
      rw [if_neg (show ¬ t > 0 by omega)]
      by_cases hbs : bs.length > 0 <;> simp [hbs]

/-- Witness for C4 (amended) at the expired-entry scenario. -/
theorem C4_get_doc_write_and_return_witness :
    ((some ([1], 0) : Option (Bytes × Int)) = none
      ∨ ∃ bs t, (some ([1], 0) : Option (Bytes × Int)) = some (bs, t) ∧ t ≤ 0) ∧
    (getBookModel (some ([1], 0)) (Except.ok [2]) 0
      = ⟨none, [2], fuzz editionTTL 2 0, [([2], fuzz editionTTL 2 0)], true⟩ ∧
    getWorkModel (some ([1], 0)) (Except.ok [2]) 0
      = ⟨none,
         if (cachedBytesOf (some ([1], 0))).length > 0
           then cachedBytesOf (some ([1], 0)) else [2],
         fuzz workTTL (3 / 2) 0,
         [([2], fuzz workTTL (3 / 2) 0)], true⟩) :=
  ⟨Or.inr ⟨[1], 0, rfl, by decide⟩,
    C4_get_doc_write_and_return (some ([1], 0)) [2] 0
      (Or.inr ⟨[1], 0, rfl, by decide⟩)⟩

/-! ## Author read path and the unknown-author short-circuit -/

/-- `unknownAuthor` (`controller.go` lines 52-57): placeholder/aggregator
author IDs that always 404 upstream. -/
def unknownAuthor (authorID : Int) : Bool :=
  authorID == 22294257 || authorID == 5158478 || authorID == 5481957
    || authorID == 4699102 || authorID == 14144674 || authorID == 5153555
    || authorID == 4340042

/-- Observable outcome of one `GetAuthor` call: the returned triple plus
how many cache reads happened, whether the Getter ran, whether the
singleflight group was entered, the cache writes under the author key, and
whether a pre-refresh snapshot was persisted. -/
structure AuthorGetResult where
  err : Option FetchErr
  bytes : Bytes
  ttl : Int
  cacheReads : Nat
  getterCalled : Bool
  usedSingleflight : Bool
  writes : List (Bytes × Int)
  persisted : Bool
deriving DecidableEq, Repr

/-- `getAuthor` (`controller.go` lines 566-618), the body run inside the
singleflight group. It prefers the `REFRESHING` snapshot (returned with a
one-hour TTL), then a valid main entry; on a miss it fetches, negatively
caches a 404, writes fresh bytes with a fuzzed author TTL, persists the
pre-refresh state and kicks off the background refresh, returning the
previous bytes when any existed. -/
def getAuthorInner (refreshCached : Option Bytes)
    (mainCached : Option (Bytes × Int)) (getter : Except FetchErr Bytes)
    (r : ℚ) : AuthorGetResult :=
  match refreshCached with
  | some pre =>
    if pre = missingSentinel then ⟨some .notFound, [], 0, 1, false, false, [], false⟩
    else ⟨none, pre, nsHour, 1, false, false, [], false⟩
  | none =>
    let stale := cachedBytesOf mainCached
    let miss :=
      match getter with
      | .error .notFound =>
        ⟨some .notFound, [], 0, 2, true, false, [(missingSentinel, missingTTL)], false⟩
      | .error e => ⟨some e, [], 0, 2, true, false, [], false⟩
      | .ok bs =>
        let kept := if stale.length = 0 then bs else stale
        ⟨none, kept, fuzz authorTTL (3 / 2) r, 2, true, false,
          [(bs, fuzz authorTTL (3 / 2) r)], true⟩
    match mainCached with
    | some (bs, ttl) =>
      if ttl > 0 then
        if bs = missingSentinel then ⟨some .notFound, [], 0, 2, false, false, [], false⟩
        else ⟨none, bs, ttl, 2, false, false, [], false⟩
      else miss
    | none => miss

/-- `GetAuthor` (`controller.go` lines 301-311): the unknown-author IDs
are rejected with not-found and the negative TTL before the singleflight
group, the cache, or the Getter are touched; all other IDs run
`getAuthor` inside the group. -/
def GetAuthorModel (authorID : Int) (refreshCached : Option Bytes)
    (mainCached : Option (Bytes × Int)) (getter : Except FetchErr Bytes)
    (r : ℚ) : AuthorGetResult :=
  if unknownAuthor authorID then
    ⟨some .notFound, [], missingTTL, 0, false, false, [], false⟩
  else
    { getAuthorInner refreshCached mainCached getter r with usedSingleflight := true }

/-- C9: every author ID in the static unknown-author set is rejected
immediately: `GetAuthor` returns not-found with the negative-cache TTL,
performs zero cache reads and writes, never invokes the Getter, and never
enters the singleflight group. -/
theorem C9_unknown_author_short_circuit (authorID : Int)
    (h : unknownAuthor authorID = true) (refreshCached : Option Bytes)
    (mainCached : Option (Bytes × Int)) (getter : Except FetchErr Bytes) (r : ℚ) :
    GetAuthorModel authorID refreshCached mainCached getter r
      = ⟨some FetchErr.notFound, [], missingTTL, 0, false, false, [], false⟩ := by
  unfold GetAuthorModel
  rw [if_pos h]

/-- Witness for C9 at author 22294257 (and checking the whole static
list). -/
theorem C9_unknown_author_short_circuit_witness :
    (unknownAuthor 22294257 = true ∧ unknownAuthor 5158478 = true
      ∧ unknownAuthor 5481957 = true ∧ unknownAuthor 4699102 = true
      ∧ unknownAuthor 14144674 = true ∧ unknownAuthor 5153555 = true
      ∧ unknownAuthor 4340042 = true) ∧
    GetAuthorModel 22294257 none none (Except.ok [7]) 0
      = ⟨some FetchErr.notFound, [], missingTTL, 0, false, false, [], false⟩ :=
  ⟨by decide,
    C9_unknown_author_short_circuit 22294257 (by decide) none none (Except.ok [7]) 0⟩

/-! ## Title disambiguation in `denormalizeWorks`

`denormalizeWorks` (`controller.go` lines 902-978), after insert-merging
the fetched works into `Author.works`, counts each work's upper-cased
short title (the `ShortTitle`, or the `Title` when `ShortTitle` is empty),
then rewrites any work that shares its short title or sits in a series to
its full title, along with its books. -/

/-- The key counted in the `titles` map: upper-cased `ShortTitle`, or
upper-cased `Title` when `ShortTitle` is empty. -/
def shortKeyW (w : workResource) : String :=
  if w.shortTitle ≠ "" then w.shortTitle.toUpper else w.title.toUpper

/-- The per-book rewrite: substitute the full title when non-empty. -/
def disambiguateBook (b : bookResource) : bookResource :=
  if b.fullTitle = "" then b else { b with title := b.fullTitle }

/-- The title-disambiguation pass of `denormalizeWorks` over the author's
works (`controller.go` lines 906-914 build the counts, 956-978 rewrite):
a work is left alone when it is in no series and its short title is unique
(count at most one — the count includes the work itself), or when its full
title is empty; otherwise its title and its books' titles become the full
titles. -/
def disambiguateWorks (works : List workResource) : List workResource :=
  let titles := works.map shortKeyW
  works.map (fun w =>
    if w.series.length = 0 ∧ titles.count (shortKeyW w) ≤ 1 then w
    else if w.fullTitle = "" then w
    else { w with title := w.fullTitle, books := w.books.map disambiguateBook })

/-- C5: in the author document produced by `denormalizeWorks`, a work
whose short title is shared case-insensitively with another of the
author's works, or which belongs to at least one series, has its title
(and its books' titles) replaced by the full titles whenever the full
title is non-empty; a work with a unique short title and no series is kept
unchanged. Stated for the work at any position `pre.length` of the works
list. -/
theorem C5_title_disambiguation (pre post : List workResource) (w : workResource) :
    (disambiguateWorks (pre ++ w :: post)).get? pre.length
      = some
        (if (¬ ∃ v ∈ pre ++ post, shortKeyW v = shortKeyW w) ∧ w.series = [] then w
         else if w.fullTitle = "" then w
         else { w with title := w.fullTitle, books := w.books.map disambiguateBook }) := by
  have hga : (pre ++ w :: post).get? pre.length = some w := by
    rw [List.get?_append_right (le_refl _)]
    simp
  have hkey : (((pre ++ w :: post).map shortKeyW).count (shortKeyW w) ≤ 1)
      ↔ (shortKeyW w ∉ pre.map shortKeyW ∧ shortKeyW w ∉ post.map shortKeyW) := by
    rw [List.map_append, List.map_cons, List.count_append, List.count_cons_self]
    constructor
    · intro hle
      have h0 : (pre.map shortKeyW).count (shortKeyW w) = 0
          ∧ (post.map shortKeyW).count (shortKeyW w) = 0 := by omega
      exact ⟨List.count_eq_zero.mp h0.1, List.count_eq_zero.mp h0.2⟩
    · intro ⟨ha, hb⟩
      rw [List.count_eq_zero.mpr ha, List.count_eq_zero.mpr hb]
  have hmem : (¬ ∃ v ∈ pre ++ post, shortKeyW v = shortKeyW w)
      ↔ (shortKeyW w ∉ pre.map shortKeyW ∧ shortKeyW w ∉ post.map shortKeyW) := by
    constructor
    · intro hno
      constructor
      · intro hc
        obtain ⟨v, hv, he⟩ := List.mem_map.mp hc
        exact hno ⟨v, List.mem_append_left post hv, he⟩
      · intro hc
        obtain ⟨v, hv, he⟩ := List.mem_map.mp hc
        exact hno ⟨v, List.mem_append_right pre hv, he⟩
    · intro ⟨ha, hb⟩ ⟨v, hv, he⟩
      rcases List.mem_append.mp hv with hv | hv
      · exact ha (List.mem_map.mpr ⟨v, hv, he⟩)
      · exact hb (List.mem_map.mpr ⟨v, hv, he⟩)
  unfold disambiguateWorks
  rw [List.get?_map, hga]
  show some _ = some _
  congr 1
  beta_reduce
  by_cases hc : w.series.length = 0
      ∧ ((pre ++ w :: post).map shortKeyW).count (shortKeyW w) ≤ 1
  · have hyes : (¬ ∃ v ∈ pre ++ post, shortKeyW v = shortKeyW w) ∧ w.series = [] :=
      ⟨hmem.mpr (hkey.mp hc.2), List.length_eq_zero.mp hc.1⟩
    rw [if_pos hc, if_pos hyes]
  · have hno : ¬ ((¬ ∃ v ∈ pre ++ post, shortKeyW v = shortKeyW w) ∧ w.series = []) := by
      intro ⟨hna, hser⟩
      exact hc ⟨by rw [hser]; rfl, hkey.mpr (hmem.mp hna)⟩
    rw [if_neg hc, if_neg hno]

/-! ## The edge buffer (`edgebuf`, `buffer.go` / `edges.go`)

`edgebuf` is a FIFO of edge pointers plus two maps (`works`, `authors`)
indexing the queued edge of that kind per parent ID; map entries alias the
queue entries, so a coalescing push mutates the single queued edge.  The
model keeps just the queue and performs the map lookup as a search for the
(unique) queued edge with the same kind and parent — faithful because
push inserts into map and queue together and pop deletes both.
`refreshDone` edges have no map and are always appended.  `size` tracks
the total pending child count exposed by `len`. -/

/-- Edge kinds (`edges.go`): `authorEdge = 1`, `workEdge = 2`,
`refreshDone = 3`. -/
inductive EdgeKind where
  | authorEdge
  | workEdge
  | refreshDone
deriving DecidableEq, Repr

/-- `edge`: a parent/child denormalization step; `childIDs` is a Go
`set[int64]`. -/
structure Edge where
  kind : EdgeKind
  parentID : Int
  childIDs : Finset Int
deriving DecidableEq

/-- The (kind, parentID) coalescing key. -/
def edgeKey (e : Edge) : EdgeKind × Int := (e.kind, e.parentID)

/-- `edgebuf` state: the pointer queue and the `size` counter. -/
structure EdgeBuf where
  queue : List Edge
  size : Int
deriving DecidableEq

/-- The map lookup + in-place merge of `push`: find the queued edge with
this kind and parent, replace its children by the union, and report the
number of new children, or report `none` when no such edge is queued. -/
def mergeInto : List Edge → Edge → Option (List Edge × Int)
  | [], _ => none
  | x :: xs, e =>
    if x.kind = e.kind ∧ x.parentID = e.parentID then
      some (({ x with childIDs := x.childIDs ∪ e.childIDs }) :: xs,
            ((x.childIDs ∪ e.childIDs).card : Int) - (x.childIDs.card : Int))
    else
      match mergeInto xs e with
      | some (ys, d) => some (x :: ys, d)
      | none => none

/-- `edgebuf.push` (`buffer.go` lines 99-142, `edges.go` lines 180-214):
author and work edges coalesce with the queued edge for the same parent,
adding `len(combined) - len(existing)` to `size`; otherwise — and always
for `refreshDone` — the edge is appended and `size` grows by its child
count. -/
def pushE (b : EdgeBuf) (e : Edge) : EdgeBuf :=
  match e.kind with
  | .refreshDone => ⟨b.queue ++ [e], b.size + e.childIDs.card⟩
  | _ =>
    match mergeInto b.queue e with
    | some (q, d) => ⟨q, b.size + d⟩
    | none => ⟨b.queue ++ [e], b.size + e.childIDs.card⟩

/-- `edgebuf.pop` (`buffer.go` lines 157-186): remove the queue head (and
its map entry) and subtract its child count; an empty queue blocks, so the
state is unchanged and nothing is returned. -/
def popE (b : EdgeBuf) : Option Edge × EdgeBuf :=
  match b.queue with
  | [] => (none, b)
  | e :: rest => (some e, ⟨rest, b.size - e.childIDs.card⟩)

/-- `edgebuf.len` (`buffer.go` lines 189-194): the pending child count. -/
def lenE (b : EdgeBuf) : Int := b.size

/-- One buffer operation. -/
inductive BufOp where
  | push (e : Edge)
  | pop
deriving DecidableEq

/-- Apply one operation. -/
def applyOp (b : EdgeBuf) : BufOp → EdgeBuf
  | .push e => pushE b e
  | .pop => (popE b).2

/-- The buffer reached by a sequence of operations from the empty
buffer. -/
def runOps (ops : List BufOp) : EdgeBuf :=
  ops.foldl applyOp ⟨[], 0⟩

/-- No two queued author/work edges share a (kind, parentID). -/
def noDupAW (queue : List Edge) : Prop :=
  (queue.map edgeKey).Pairwise (fun a b => a.1 ≠ EdgeKind.refreshDone → ¬ a = b)

instance : DecidablePred noDupAW := by
  intro q
  unfold noDupAW
  infer_instance

/-- Total pending children of a queue. -/
def totalChildren (queue : List Edge) : Int :=
  (queue.map (fun e => (e.childIDs.card : Int))).sum

/-- A successful merge keeps the queue keys and length and accounts for
the size delta. -/
theorem mergeInto_some (q : List Edge) (e : Edge) (q2 : List Edge) (d : Int)
    (h : mergeInto q e = some (q2, d)) :
    q2.map edgeKey = q.map edgeKey ∧ totalChildren q2 = totalChildren q + d := by
  induction q generalizing q2 d with
  | nil => simp [mergeInto] at h
  | cons x xs ih =>
    rw [mergeInto] at h
    by_cases hm : x.kind = e.kind ∧ x.parentID = e.parentID
    · rw [if_pos hm] at h
      obtain ⟨hq, hd⟩ := Prod.mk.injEq .. ▸ Option.some.inj h
      subst hq hd
      refine ⟨rfl, ?_⟩
      simp [totalChildren]
      ring
    · rw [if_neg hm] at h
      cases hrec : mergeInto xs e with
      | none => rw [hrec] at h; exact absurd h (by simp)
      | some p =>
        obtain ⟨ys, dd⟩ := p
        rw [hrec] at h
        obtain ⟨hq, hd⟩ := Prod.mk.injEq .. ▸ Option.some.inj h
        subst hq hd
        obtain ⟨hkeys, hsum⟩ := ih ys dd hrec
        constructor
        · simp [hkeys]
        · simp [totalChildren] at hsum ⊢
          omega

/-- A failed merge means no queued edge shares the key. -/
theorem mergeInto_none (q : List Edge) (e : Edge)
    (h : mergeInto q e = none) :
    ∀ x ∈ q, ¬ (x.kind = e.kind ∧ x.parentID = e.parentID) := by
  induction q with
  | nil => simp
  | cons x xs ih =>
    rw [mergeInto] at h
    by_cases hm : x.kind = e.kind ∧ x.parentID = e.parentID
    · rw [if_pos hm] at h
      exact absurd h (by simp)
    · rw [if_neg hm] at h
      intro y hy
      rcases List.mem_cons.mp hy with hy | hy
      · exact hy ▸ hm
      · cases hrec : mergeInto xs e with
        | none => exact ih hrec y hy
        | some p => rw [hrec] at h; exact absurd h (by simp)

/-- Push preserves the size accounting and the coalescing invariant. -/
theorem pushE_inv (b : EdgeBuf) (e : Edge)
    (hsz : b.size = totalChildren b.queue) (hnd : noDupAW b.queue) :
    (pushE b e).size = totalChildren (pushE b e).queue
      ∧ noDupAW (pushE b e).queue := by
  have happend : ∀ hcross : ∀ x ∈ b.queue,
        ¬ (x.kind = e.kind ∧ x.parentID = e.parentID),
      (⟨b.queue ++ [e], b.size + e.childIDs.card⟩ : EdgeBuf).size
          = totalChildren (b.queue ++ [e])
        ∧ noDupAW (b.queue ++ [e]) := by
    intro hcross
    constructor
    · simp [totalChildren] at hsz ⊢
      omega
    · unfold noDupAW
      rw [List.map_append, List.pairwise_append]
      refine ⟨hnd, by simp, ?_⟩
      intro a ha bb hb hne
      simp at hb
      obtain ⟨x, hx, hax⟩ := List.mem_map.mp ha
      intro hcon
      refine hcross x hx ?_
      rw [hb] at hcon
      rw [← hax] at hcon
      exact ⟨congrArg Prod.fst hcon, congrArg Prod.snd hcon⟩
  have happendRD : e.kind = EdgeKind.refreshDone →
      (⟨b.queue ++ [e], b.size + e.childIDs.card⟩ : EdgeBuf).size
          = totalChildren (b.queue ++ [e])
        ∧ noDupAW (b.queue ++ [e]) := by
    intro hrd
    constructor
    · simp [totalChildren] at hsz ⊢
      omega
    · unfold noDupAW
      rw [List.map_append, List.pairwise_append]
      refine ⟨hnd, by simp, ?_⟩
      intro a ha bb hb hne
      simp at hb
      obtain ⟨x, hx, hax⟩ := List.mem_map.mp ha
      intro hcon
      rw [hb] at hcon
      rw [← hax] at hcon
      have : x.kind = EdgeKind.refreshDone := by
        rw [show x.kind = e.kind from congrArg Prod.fst hcon, hrd]
      exact hne (by rw [← hax]; exact (by simpa [edgeKey] using this))
  cases hk : e.kind with
  | refreshDone =>
    unfold pushE
    rw [hk]
    exact happendRD hk
  | authorEdge =>
    unfold pushE
    rw [hk]
    cases hm : mergeInto b.queue e with
    | some p =>
      obtain ⟨q, d⟩ := p
      obtain ⟨hkeys, hsum⟩ := mergeInto_some b.queue e q d hm
      constructor
      · simp only []
        omega
      · unfold noDupAW
        rw [hkeys]
        exact hnd
    | none =>
      exact happend (mergeInto_none b.queue e hm)
  | workEdge =>
    unfold pushE
    rw [hk]
    cases hm : mergeInto b.queue e with
    | some p =>
      obtain ⟨q, d⟩ := p
      obtain ⟨hkeys, hsum⟩ := mergeInto_some b.queue e q d hm
      constructor
      · simp only []
        omega
      · unfold noDupAW
        rw [hkeys]
        exact hnd
    | none =>
      exact happend (mergeInto_none b.queue e hm)

/-- Pop preserves the size accounting and the coalescing invariant. -/
theorem popE_inv (b : EdgeBuf)
    (hsz : b.size = totalChildren b.queue) (hnd : noDupAW b.queue) :
    (popE b).2.size = totalChildren (popE b).2.queue ∧ noDupAW (popE b).2.queue := by
  cases hq : b.queue with
  | nil =>
    simp only [popE, hq]
    rw [hq] at hsz hnd
    exact ⟨hsz, hnd⟩
  | cons e rest =>
    simp only [popE, hq]
    rw [hq] at hsz hnd
    constructor
    · simp [totalChildren] at hsz ⊢
      omega
    · unfold noDupAW at hnd ⊢
      rw [List.map_cons] at hnd
      exact (List.pairwise_cons.mp hnd).2

/-- C6 (amended): for every sequence of pushes and pops, the queue never
holds two `authorEdge` or `workEdge` entries with the same
(kind, parentID) — pushes of those kinds merge child sets into the pending
entry instead of appending (`refreshDone` edges are appended without
coalescing) — and `len` always equals the total number of pending
children. -/
theorem C6_edgebuf_coalescing (ops : List BufOp) :
    lenE (runOps ops) = totalChildren (runOps ops).queue
      ∧ noDupAW (runOps ops).queue
      ∧ ∀ e : Edge, e.kind ≠ EdgeKind.refreshDone →
          mergeInto (runOps ops).queue e ≠ none →
          (pushE (runOps ops) e).queue.length = (runOps ops).queue.length := by
  have hrun : ∀ (b : EdgeBuf), b.size = totalChildren b.queue → noDupAW b.queue →
      ∀ ops2 : List BufOp,
        (ops2.foldl applyOp b).size = totalChildren (ops2.foldl applyOp b).queue
          ∧ noDupAW (ops2.foldl applyOp b).queue := by
    intro b hsz hnd ops2
    induction ops2 generalizing b with
    | nil => exact ⟨hsz, hnd⟩
    | cons op rest ih =>
      rw [List.foldl_cons]
      cases op with
      | push e =>
        obtain ⟨h1, h2⟩ := pushE_inv b e hsz hnd
        exact ih (pushE b e) h1 h2
      | pop =>
        obtain ⟨h1, h2⟩ := popE_inv b hsz hnd
        exact ih (popE b).2 h1 h2
  obtain ⟨h1, h2⟩ := hrun ⟨[], 0⟩ (by simp [totalChildren]) (by simp [noDupAW]) ops
  refine ⟨h1, h2, ?_⟩
  intro e hrd hmerge
  cases hm : mergeInto (runOps ops).queue e with
  | none => exact absurd hm hmerge
  | some p =>
    obtain ⟨q, d⟩ := p
    have hlen : q.length = (runOps ops).queue.length := by
      have := (mergeInto_some (runOps ops).queue e q d hm).1
      have hml := congrArg List.length this
      simpa using hml
    unfold pushE
    cases hk : e.kind with
    | refreshDone => exact absurd hk hrd
    | authorEdge => rw [hm]; exact hlen
    | workEdge => rw [hm]; exact hlen

/-- C6 counterexample: pushing the `refreshDone` edge for author 1 twice
appends two queue entries with the same (kind, parentID) — the claimed
universal coalescing by (kind, parentID) does not hold for `refreshDone`
edges. -/
theorem C6_edgebuf_coalescing_cex :
    (runOps [BufOp.push ⟨EdgeKind.refreshDone, 1, ∅⟩,
             BufOp.push ⟨EdgeKind.refreshDone, 1, ∅⟩]).queue
      = [⟨EdgeKind.refreshDone, 1, ∅⟩, ⟨EdgeKind.refreshDone, 1, ∅⟩]
    ∧ ¬ ((runOps [BufOp.push ⟨EdgeKind.refreshDone, 1, ∅⟩,
                  BufOp.push ⟨EdgeKind.refreshDone, 1, ∅⟩]).queue.map edgeKey).Nodup := by
  constructor
  · rfl
  · intro hcon
    have : ((⟨[⟨EdgeKind.refreshDone, 1, ∅⟩, ⟨EdgeKind.refreshDone, 1, ∅⟩],
        2⟩ : EdgeBuf)).queue.map edgeKey
        = [(EdgeKind.refreshDone, 1), (EdgeKind.refreshDone, 1)] := rfl
    rw [show (runOps [BufOp.push ⟨EdgeKind.refreshDone, 1, ∅⟩,
        BufOp.push ⟨EdgeKind.refreshDone, 1, ∅⟩]).queue
        = [⟨EdgeKind.refreshDone, 1, ∅⟩, ⟨EdgeKind.refreshDone, 1, ∅⟩] from rfl] at hcon
    simp [edgeKey] at hcon

/-! ## Background author refresh (`refreshAuthor`, `controller.go` 620-676)

The refresh task iterates `getter.GetAuthorBooks`, fetching editions via
`GetBook`; the iteration gives up once the counter passes 1,000, skips
editions that fail to fetch, skips editions whose work names a different
primary author, collects the work IDs whose `GetWork` succeeds, then
sorts, de-duplicates (`slices.Sort` + `slices.Compact`) and enqueues one
`authorEdge` (when non-empty) followed by the `refreshDone` edge. -/

/-- `len(w.Authors) > 0 && w.Authors[0].ForeignID != authorID`. -/
def authorMismatch (authorID : Int) (w : workResource) : Bool :=
  match w.authors with
  | a0 :: _ => a0.foreignID != authorID
  | [] => false

/-- Observable state of the `GetAuthorBooks` loop: the collected work IDs
(in arrival order), the loop counter `n`, and how many `GetBook` calls
returned an edition. -/
structure RefreshOut where
  workIDs : List Int
  counted : Nat
  fetchedOK : Nat
deriving DecidableEq, Repr

/-- The `for bookID := range GetAuthorBooks` loop (`controller.go` lines
637-660). `getBook bookID` is `GetBook` combined with the error-ignoring
unmarshal; `getWorkOk` is whether `GetWork(workID)` succeeds. -/
def refreshLoop (getBook : Int → Option workResource) (getWorkOk : Int → Bool)
    (authorID : Int) (bookIDs : List Int) (n : Nat) (acc : List Int)
    (f : Nat) : RefreshOut :=
  match bookIDs with
  | [] => ⟨acc, n, f⟩
  | bid :: rest =>
    if n > 1000 then ⟨acc, n, f⟩
    else
      match getBook bid with
      | none => refreshLoop getBook getWorkOk authorID rest n acc f
      | some w =>
        if authorMismatch authorID w then
          refreshLoop getBook getWorkOk authorID rest n acc (f + 1)
        else
          refreshLoop getBook getWorkOk authorID rest (n + 1)
            (if getWorkOk w.foreignID then acc ++ [w.foreignID] else acc)
            (f + 1)

/-- Insertion step of the model of Go `slices.Sort`. -/
def insSorted (x : Int) : List Int → List Int
  | [] => [x]
  | y :: ys => if x ≤ y then x :: y :: ys else y :: insSorted x ys

/-- Models `slices.Sort` (ascending) by insertion sort. -/
def sortInts (l : List Int) : List Int := l.foldr insSorted []

/-- Models `slices.Compact`: collapse adjacent equal runs. -/
def compactAdj : List Int → List Int
  | [] => []
  | [x] => [x]
  | x :: y :: rest =>
    if x = y then compactAdj (y :: rest) else x :: compactAdj (y :: rest)

/-- `refreshAuthor` after the loop: sort and compact the work IDs and
enqueue an `authorEdge` holding them (when any) plus the terminal
`refreshDone` edge. Returns the loop state, the deduplicated IDs and the
enqueued edges in order. -/
def refreshAuthorModel (getBook : Int → Option workResource)
    (getWorkOk : Int → Bool) (authorID : Int) (bookIDs : List Int) :
    RefreshOut × List Int × List Edge :=
  let out := refreshLoop getBook getWorkOk authorID bookIDs 0 [] 0
  let deduped := compactAdj (sortInts out.workIDs)
  (out, deduped,
    (if deduped.length > 0
      then [⟨EdgeKind.authorEdge, authorID, deduped.toFinset⟩] else [])
      ++ [⟨EdgeKind.refreshDone, authorID, ∅⟩])

theorem insSorted_mem (x y : Int) (l : List Int) :
    y ∈ insSorted x l ↔ y = x ∨ y ∈ l := by
  induction l with
  | nil => simp [insSorted]
  | cons z zs ih =>
    rw [insSorted]
    by_cases h : x ≤ z
    · rw [if_pos h]
      simp
    · rw [if_neg h]
      simp [ih]
      tauto

theorem insSorted_sorted (x : Int) (l : List Int) (h : l.Pairwise (· ≤ ·)) :
    (insSorted x l).Pairwise (· ≤ ·) := by
  induction l with
  | nil => simp [insSorted]
  | cons z zs ih =>
    have hz : ∀ y ∈ zs, z ≤ y := (List.pairwise_cons.mp h).1
    have hzs : zs.Pairwise (· ≤ ·) := (List.pairwise_cons.mp h).2
    rw [insSorted]
    by_cases hle : x ≤ z
    · rw [if_pos hle]
      refine List.pairwise_cons.mpr ⟨?_, h⟩
      intro y hy
      rcases List.mem_cons.mp hy with hy | hy
      · omega
      · have := hz y hy
        omega
    · rw [if_neg hle]
      refine List.pairwise_cons.mpr ⟨?_, ih hzs⟩
      intro y hy
      rcases (insSorted_mem x y zs).mp hy with hy | hy
      · omega
      · exact hz y hy

theorem sortInts_sorted (l : List Int) : (sortInts l).Pairwise (· ≤ ·) := by
  induction l with
  | nil => simp [sortInts]
  | cons x xs ih =>
    exact insSorted_sorted x (sortInts xs) ih

theorem sortInts_mem (l : List Int) (y : Int) : y ∈ sortInts l ↔ y ∈ l := by
  induction l with
  | nil => simp [sortInts]
  | cons x xs ih =>
    show y ∈ insSorted x (sortInts xs) ↔ _
    rw [insSorted_mem, ih]
    simp

theorem compactAdj_mem (l : List Int) (y : Int) : y ∈ compactAdj l ↔ y ∈ l := by
  induction l with
  | nil => simp [compactAdj]
  | cons x xs ih =>
    cases xs with
    | nil => simp [compactAdj]
    | cons z zs =>
      rw [compactAdj]
      by_cases h : x = z
      · rw [if_pos h, ih]
        subst h
        simp
      · rw [if_neg h]
        simp [ih]

theorem compactAdj_sorted (l : List Int) (h : l.Pairwise (· ≤ ·)) :
    (compactAdj l).Pairwise (· < ·) := by
  induction l with
  | nil => simp [compactAdj]
  | cons x xs ih =>
    cases xs with
    | nil => simp [compactAdj]
    | cons z zs =>
      have hx : ∀ y ∈ z :: zs, x ≤ y := (List.pairwise_cons.mp h).1
      have htl : (z :: zs).Pairwise (· ≤ ·) := (List.pairwise_cons.mp h).2
      have hz : ∀ y ∈ zs, z ≤ y := (List.pairwise_cons.mp htl).1
      rw [compactAdj]
      by_cases heq : x = z
      · rw [if_pos heq]
        exact ih htl
      · rw [if_neg heq]
        refine List.pairwise_cons.mpr ⟨?_, ih htl⟩
        intro y hy
        have hmem := (compactAdj_mem (z :: zs) y).mp hy
        have hxz : x < z := by
          have := hx z (by simp)
          omega
        rcases List.mem_cons.mp hmem with hmem | hmem
        · omega
        · have := hz y hmem
          omega

/-- The loop counter never passes 1,001: it only advances below the 1,000
guard. -/
theorem refreshLoop_counted_le (getBook : Int → Option workResource)
    (getWorkOk : Int → Bool) (authorID : Int) (bookIDs : List Int)
    (n : Nat) (acc : List Int) (f : Nat) (hn : n ≤ 1001) :
    (refreshLoop getBook getWorkOk authorID bookIDs n acc f).counted ≤ 1001 := by
  induction bookIDs generalizing n acc f with
  | nil => exact hn
  | cons bid rest ih =>
    rw [refreshLoop]
    by_cases hguard : n > 1000
    · rw [if_pos hguard]
      exact hn
    · rw [if_neg hguard]
      cases hg : getBook bid with
      | none =>
        simp only [hg]
        exact ih n acc f hn
      | some w =>
        simp only [hg]
        by_cases hmm : authorMismatch authorID w
        · rw [if_pos hmm]
          exact ih n acc (f + 1) hn
        · rw [if_neg hmm]
          exact ih (n + 1) _ (f + 1) (by omega)

/-- Origin of every collected work ID: some processed edition fetched it,
its primary author did not mismatch, and its work fetch succeeded. -/
theorem refreshLoop_mem (getBook : Int → Option workResource)
    (getWorkOk : Int → Bool) (authorID : Int) (bookIDs : List Int)
    (n : Nat) (acc : List Int) (f : Nat) (id : Int)
    (h : id ∈ (refreshLoop getBook getWorkOk authorID bookIDs n acc f).workIDs) :
    id ∈ acc ∨ ∃ bid ∈ bookIDs, ∃ w, getBook bid = some w
      ∧ w.foreignID = id
      ∧ authorMismatch authorID w = false
      ∧ getWorkOk id = true := by
  induction bookIDs generalizing n acc f with
  | nil => exact Or.inl h
  | cons bid rest ih =>
    rw [refreshLoop] at h
    by_cases hguard : n > 1000
    · rw [if_pos hguard] at h
      exact Or.inl h
    · rw [if_neg hguard] at h
      cases hg : getBook bid with
      | none =>
        simp only [hg] at h
        rcases ih n acc f h with hl | ⟨b2, hb2, w2, hw⟩
        · exact Or.inl hl
        · exact Or.inr ⟨b2, List.mem_cons_of_mem bid hb2, w2, hw⟩
      | some w =>
        simp only [hg] at h
        by_cases hmm : authorMismatch authorID w
        · rw [if_pos hmm] at h
          rcases ih n acc (f + 1) h with hl | ⟨b2, hb2, w2, hw⟩
          · exact Or.inl hl
          · exact Or.inr ⟨b2, List.mem_cons_of_mem bid hb2, w2, hw⟩
        · rw [if_neg hmm] at h
          rcases ih (n + 1) _ (f + 1) h with hl | ⟨b2, hb2, w2, hw⟩
          · by_cases hok : getWorkOk w.foreignID
            · rw [if_pos hok] at hl
              rcases List.mem_append.mp hl with hl | hl
              · exact Or.inl hl
              · have hid : w.foreignID = id := by
                  have := hl
                  simp at this
                  omega
                refine Or.inr ⟨bid, List.mem_cons_self bid rest, w, hg, hid, ?_, ?_⟩
                · simpa using hmm
                · rw [← hid]
                  exact hok
            · rw [if_neg hok] at hl
              exact Or.inl hl
          · exact Or.inr ⟨b2, List.mem_cons_of_mem bid hb2, w2, hw⟩

/-- C7 (amended): the refresh loop counts at most 1,001 editions — the
guard `n > 1000` breaks only after the 1,001st counted edition, and
editions whose fetch fails or whose primary author mismatches do not
advance the counter — and the enqueued edges are one `authorEdge`
carrying exactly the deduplicated (sorted, duplicate-free) resolved work
IDs when there are any, followed by the terminal `refreshDone` edge. -/
theorem C7_author_refresh_bounded (getBook : Int → Option workResource)
    (getWorkOk : Int → Bool) (authorID : Int) (bookIDs : List Int) :
    (refreshAuthorModel getBook getWorkOk authorID bookIDs).1.counted ≤ 1001
    ∧ (refreshAuthorModel getBook getWorkOk authorID bookIDs).2.1.Pairwise (· < ·)
    ∧ (∀ id, id ∈ (refreshAuthorModel getBook getWorkOk authorID bookIDs).2.1
        ↔ id ∈ (refreshAuthorModel getBook getWorkOk authorID bookIDs).1.workIDs)
    ∧ (refreshAuthorModel getBook getWorkOk authorID bookIDs).2.2
        = (if (refreshAuthorModel getBook getWorkOk authorID bookIDs).2.1.length > 0
           then [⟨EdgeKind.authorEdge, authorID,
                  (refreshAuthorModel getBook getWorkOk authorID bookIDs).2.1.toFinset⟩]
           else [])
          ++ [⟨EdgeKind.refreshDone, authorID, ∅⟩] := by
  refine ⟨?_, ?_, ?_, rfl⟩
  · exact refreshLoop_counted_le getBook getWorkOk authorID bookIDs 0 [] 0 (by omega)
  · exact compactAdj_sorted _ (sortInts_sorted _)
  · intro id
    show id ∈ compactAdj (sortInts _) ↔ _
    rw [compactAdj_mem, sortInts_mem]
    exact Iff.rfl

/-- Getter used by the C7 counterexample: every edition resolves to a
work carrying its own ID with no contributors. -/
def floodGetBook (bookID : Int) : Option workResource :=
  some ⟨bookID, "", "", "", 0, 0, [], [], []⟩

set_option maxRecDepth 10000 in
/-- C7 counterexample: over a lazy sequence of 1,002 edition IDs that all
fetch successfully, the loop performs 1,001 successful `GetBook` fetches
before stopping — more than the 1,000 stated by the claim. -/
theorem C7_author_refresh_bounded_cex :
    (refreshLoop floodGetBook (fun _ => false) 7
        ((List.range 1002).map Int.ofNat) 0 [] 0).fetchedOK = 1001
    ∧ 1000 < 1001 := by
  constructor
  · rfl
  · omega

/-- C10: every work ID carried by the `authorEdge` that an author refresh
enqueues originates from a processed edition whose fetched work document
either names no authors or names the refreshed author as its primary
author (editions naming a different primary author are excluded), and
whose work fetch succeeded. -/
theorem C10_refresh_mismatch_excluded (getBook : Int → Option workResource)
    (getWorkOk : Int → Bool) (authorID : Int) (bookIDs : List Int)
    (e : Edge)
    (he : e ∈ (refreshAuthorModel getBook getWorkOk authorID bookIDs).2.2)
    (hk : e.kind = EdgeKind.authorEdge) :
    ∀ id ∈ e.childIDs, ∃ bid ∈ bookIDs, ∃ w, getBook bid = some w
      ∧ w.foreignID = id
      ∧ (w.authors = []
          ∨ ∃ a0 rest, w.authors = a0 :: rest ∧ a0.foreignID = authorID)
      ∧ getWorkOk id = true := by
  intro id hid
  have hmm_char : ∀ w : workResource, authorMismatch authorID w = false →
      (w.authors = [] ∨ ∃ a0 rest, w.authors = a0 :: rest
        ∧ a0.foreignID = authorID) := by
    intro w hmm
    cases ha : w.authors with
    | nil => exact Or.inl rfl
    | cons a0 rest =>
      simp only [authorMismatch, ha] at hmm
      simp at hmm
      exact Or.inr ⟨a0, rest, rfl, hmm⟩
  have hed : e = ⟨EdgeKind.authorEdge, authorID,
      (compactAdj (sortInts (refreshLoop getBook getWorkOk authorID bookIDs
        0 [] 0).workIDs)).toFinset⟩ := by
    have hlist := he
    show e = _
    by_cases hlen : (compactAdj (sortInts (refreshLoop getBook getWorkOk authorID
        bookIDs 0 [] 0).workIDs)).length > 0
    · have : (refreshAuthorModel getBook getWorkOk authorID bookIDs).2.2
          = [⟨EdgeKind.authorEdge, authorID,
              (compactAdj (sortInts (refreshLoop getBook getWorkOk authorID bookIDs
                0 [] 0).workIDs)).toFinset⟩,
             ⟨EdgeKind.refreshDone, authorID, ∅⟩] := by
        show (if _ > 0 then _ else _) ++ _ = _
        rw [if_pos hlen]
        rfl
      rw [this] at hlist
      rcases List.mem_cons.mp hlist with hlist | hlist
      · exact hlist
      · have : e = ⟨EdgeKind.refreshDone, authorID, ∅⟩ := by simpa using hlist
        rw [this] at hk
        exact absurd hk (by simp)
    · have : (refreshAuthorModel getBook getWorkOk authorID bookIDs).2.2
          = [⟨EdgeKind.refreshDone, authorID, ∅⟩] := by
        show (if _ > 0 then _ else _) ++ _ = _
        rw [if_neg hlen]
        rfl
      rw [this] at hlist
      have : e = ⟨EdgeKind.refreshDone, authorID, ∅⟩ := by simpa using hlist
      rw [this] at hk
      exact absurd hk (by simp)
  rw [hed] at hid
  have hmem : id ∈ (refreshLoop getBook getWorkOk authorID bookIDs 0 [] 0).workIDs := by
    have := List.mem_toFinset.mp hid
    rwa [compactAdj_mem, sortInts_mem] at this
  rcases refreshLoop_mem getBook getWorkOk authorID bookIDs 0 [] 0 id hmem with
    hl | ⟨bid, hbid, w, hg, hwid, hmm, hok⟩
  · simp at hl
  · exact ⟨bid, hbid, w, hg, hwid, hmm_char w hmm, hok⟩

/-- Getter used by the C10 witness: every edition resolves to work 42 by
author 9. -/
def primaryGetBook (_bookID : Int) : Option workResource :=
  some ⟨42, "", "", "", 0, 0, [], [⟨9⟩], []⟩

/-- Witness for C10 at a concrete refresh of author 9 over one edition. -/
theorem C10_refresh_mismatch_excluded_witness :
    ((⟨EdgeKind.authorEdge, 9, {42}⟩ : Edge)
        ∈ (refreshAuthorModel primaryGetBook (fun _ => true) 9 [5]).2.2
      ∧ (⟨EdgeKind.authorEdge, 9, ({42} : Finset Int)⟩ : Edge).kind
          = EdgeKind.authorEdge) ∧
    (∀ id ∈ (⟨EdgeKind.authorEdge, 9, ({42} : Finset Int)⟩ : Edge).childIDs,
      ∃ bid ∈ [(5 : Int)], ∃ w, primaryGetBook bid = some w
        ∧ w.foreignID = id
        ∧ (w.authors = []
            ∨ ∃ a0 rest, w.authors = a0 :: rest ∧ a0.foreignID = 9)
        ∧ (fun _ => true : Int → Bool) id = true) :=
  ⟨⟨by decide, rfl⟩,
    C10_refresh_mismatch_excluded primaryGetBook (fun _ => true) 9 [5]
      ⟨EdgeKind.authorEdge, 9, {42}⟩ (by decide) rfl⟩

/-! ## Refresh persistence (`persist.go`)

`Persister.Persist` stores the author's pre-refresh snapshot bytes under
the key `ra<authorID>` for 365 days. `Persister.Persisted` (`persist.go`
lines 64-88) selects the *values* of all `ra%` rows and runs Go
`binary.ReadVarint` over each value, collecting whatever decodes — it
never parses the author ID out of the key, and the query carries no
ordering. The varint reader is embedded below; rows whose scan or decode
errors are skipped (`continue`), so `Persisted` is `filterMap` of the
decoder over the stored values. -/

/-- Go `encoding/binary.ReadUvarint`: little-endian base-128 groups, at
most 10 bytes, overflow checked on the tenth byte; `uint64` arithmetic is
taken modulo `2^64`. Read errors and overflow both yield `none` (the
caller only distinguishes success). -/
def readUvarintAux : List Nat → Nat → Nat → Nat → Option Nat
  | [], _, _, _ => none
  | b :: rest, i, x, s =>
    if i ≥ 10 then none
    else if b < 128 then
      if i = 9 ∧ b > 1 then none
      else some ((x ||| (b <<< s)) % 2 ^ 64)
    else readUvarintAux rest (i + 1) ((x ||| ((b % 128) <<< s)) % 2 ^ 64) (s + 7)

/-- Go `binary.ReadUvarint` from the start of the byte stream. -/
def readUvarint (bytes : Bytes) : Option Nat := readUvarintAux bytes 0 0 0

/-- Go `binary.ReadVarint`: unsigned varint plus zigzag decoding
(`x := int64(ux >> 1); if ux&1 != 0 { x = ^x }`). -/
def readVarint (bytes : Bytes) : Option Int :=
  match readUvarint bytes with
  | none => none
  | some ux =>
    let x : Int := ((ux / 2 : Nat) : Int)
    some (if ux % 2 ≠ 0 then -x - 1 else x)

/-- `Persister.Persisted` per row: scan each stored `ra%` value and decode
it with `binary.ReadVarint`, skipping failures. -/
def persistedIDs (values : List Bytes) : List Int :=
  values.filterMap readVarint

/-- C8 (code evaluated at the failing input): after `TestPersister`
persists authors 2, 1 and 3 with the `MISSING` snapshot as value,
`Persisted` varint-decodes the stored snapshot values — yielding `0` per
row — instead of the author IDs `[2, 1, 3]` (in insertion order) that the
claim, the spec and the test expect. -/
theorem C8_persisted_decodes_snapshot_values :
    persistedIDs [missingSentinel, missingSentinel, missingSentinel] = [0, 0, 0]
    ∧ ([0, 0, 0] : List Int) ≠ [2, 1, 3] := by
  constructor
  · rfl
  · intro hcon
    simp at hcon

end RGlasses
